import Mathlib

/-!
Verification development for the MATCH_RECOGNIZE-rewrite repository.

Part 1: the pattern expander (src/helper/expand_pattern.py).

The source represents a pattern AST as `PatternNode = Union[str, List[PatternNode]]`;
we embed it as the nested inductive `PNode`.  The source function `expand` recurses
on elements of (slices of) its list argument; we realise this as a nested structural
recursion that first pairs every element with its expansion (`expandPairs`) and then
lets the branch logic (`expandCore`) project out exactly the expansions the source
actually computes, so unused ones cannot influence the result.

A `none` result models an uncaught Python exception (the IndexError raised by
`node[0]` when a composite node is empty after comma stripping).
-/

/-- `PatternNode = Union[str, List['PatternNode']]` from expand_pattern.py. -/
inductive PNode where
  | str (s : String)
  | list (l : List PNode)

/-- A result of `expand`: a list of symbol sequences. -/
abbrev ERes := List (List String)

/-- Test whether a node is the token `','`. -/
def isStrTok (t : PNode) (s : String) : Bool :=
  match t with
  | .str u => u = s
  | .list _ => false

/-- `_strip_commas` from expand_pattern.py: remove `','` tokens from a token list. -/
def stripCommas (l : List PNode) : List PNode :=
  l.filter (fun t => !isStrTok t ",")

/-- Python's first-seen-order deduplication (`seen` set + ordered append), used in
the PERMUTE branch and the generic-concatenation branch of `expand`. -/
def pyDedup {α : Type} [DecidableEq α] (l : List α) : List α :=
  l.foldl (fun acc x => if x ∈ acc then acc else acc ++ [x]) []

/-- Python `str.isdigit()` on ASCII strings: nonempty and all digits. -/
def pyIsdigit (s : String) : Bool :=
  s.data ≠ [] && s.data.all Char.isDigit

/-- Python `int(...)` on a digit string (only ever reached for `isdigit` strings). -/
def pyInt (s : String) : Nat :=
  s.data.foldl (fun n c => n * 10 + (c.toNat - '0'.toNat)) 0

/-- Python `str.upper()` on ASCII strings. -/
def pyUpper (s : String) : String :=
  ⟨s.data.map Char.toUpper⟩

/-- First index of the token `','` in a list (Python `list.index(',')`; only
called when a comma is present). -/
def commaIdx : List PNode → Nat
  | [] => 0
  | t :: ts => if isStrTok t "," then 0 else commaIdx ts + 1

/-- `_parse_range_token` from expand_pattern.py.  The token is e.g.
`['{','3',',','5','}']`; the function drops the braces, splits at the first
`','` and reads the numeric bounds.  The source's annotation admits a `None`
result but every code path returns a pair, so we return the pair directly. -/
def parse_range_token (op : List PNode) : Nat × Option Nat :=
  let inner := (op.drop 1).dropLast
  if inner.any (fun t => isStrTok t ",") then
    let idx := commaIdx inner
    let left := inner.take idx
    let right := inner.drop (idx + 1)
    let lo := match left.head? with
      | some (.str s) => if pyIsdigit s then pyInt s else 0
      | _ => 0
    let hi : Option Nat := match right.head? with
      | some (.str s) => if pyIsdigit s then some (pyInt s) else none
      | _ => none
    (lo, hi)
  else
    match inner.head? with
    | some (.str s) => if pyIsdigit s then (pyInt s, some (pyInt s)) else (0, some 0)
    | _ => (0, some 0)

/-- `has_quantifier` from expand_pattern.py: `node[1]` is `'*'`, `'+'`, `'?'`,
or a list containing `'{'`.  Only called on length-2 lists in the source. -/
def has_quantifier (node : List PNode) : Bool :=
  match node.get? 1 with
  | some (.str op) => op = "*" || op = "+" || op = "?"
  | some (.list op) => op.any (fun t => isStrTok t "\x7b")
  | none => false

/-- The string-atom case of `expand`: stray operator tokens and anchors
contribute `[[]]`, any other string is a symbol. -/
def expandStr (s : String) : ERes :=
  if s = "|" ∨ s = "?" then [[]]
  else if s = "^" ∨ s = "$" then [[]]
  else [[s]]

/-- `itertools.product` over a list of lists (rightmost factor varies fastest),
as used in the PERMUTE branch of `expand`. -/
def productAll {α : Type} (ls : List (List α)) : List (List α) :=
  ls.foldr (fun part acc => part.flatMap (fun x => acc.map (fun t => x :: t))) [[]]

/-- `itertools.permutations` enumeration (choose each element in input order as
head, recurse on the rest); the fuel argument, always instantiated with the
list length, keeps the recursion structural. -/
def permsLexF : Nat → List Nat → List (List Nat)
  | _, [] => [[]]
  | 0, _ :: _ => []
  | fuel + 1, x :: xs =>
      (x :: xs).flatMap (fun y => (permsLexF fuel ((x :: xs).erase y)).map (fun p => y :: p))

/-- `itertools.permutations(range(k))`-order enumeration of the orderings of a list. -/
def permsLex (l : List Nat) : List (List Nat) :=
  permsLexF l.length l

/-- Python list repetition `lst * n`. -/
def pyMul {α : Type} (l : List α) (n : Nat) : List α :=
  (List.replicate n l).flatten

/-- The generic-concatenation accumulation of `expand`: cartesian concatenation
of the per-item expansions, seeded with `[[]]`. -/
def concatAcc (parts : List ERes) : ERes :=
  parts.foldl (fun res part => res.flatMap (fun pre => part.map (fun seq => pre ++ seq))) [[]]

/-- `node[0] == '(' and node[-1] == ')'`: the bracket-stripping test of `expand`. -/
def isBracketed (l : List PNode) : Bool :=
  (l.head?.elim false (fun t => isStrTok t "(")) && (l.getLast?.elim false (fun t => isStrTok t ")"))

/-- The bracket stripping `node = node[1:-1]` applied by `expand` to a list node. -/
def bracketStrip (l : List PNode) : List PNode :=
  if isBracketed l then (l.drop 1).dropLast else l

/-- `len(node) == 2 and has_quantifier(node)`: the quantified-symbol shape. -/
def isQuantShape (l : List PNode) : Bool :=
  l.length = 2 && has_quantifier l

/-- `len(node) >= 4 and node[0].upper() == 'PERMUTE'`: the PERMUTE shape. -/
def isPermuteShape (l : List PNode) : Bool :=
  4 ≤ l.length && (l.head?.elim false (fun t =>
    match t with
    | .str s => pyUpper s = "PERMUTE"
    | .list _ => false))

/-- `len(node) == 3 and node[1] == '|'`: the alternation shape. -/
def isAltShape (l : List PNode) : Bool :=
  l.length = 3 && ((l.get? 1).elim false (fun t => isStrTok t "|"))

/-- `len(node) == 2 and node[0] == '(' and node[1] == ')'`: the empty-pattern shape
(dead in the source because brackets are stripped first). -/
def isParenShape (l : List PNode) : Bool :=
  l.length = 2 && (l.get? 0).elim false (fun t => isStrTok t "(")
    && (l.get? 1).elim false (fun t => isStrTok t ")")

/-- `['{-', inner, '-}']`: the excluded-pattern shape. -/
def isExclShape (l : List PNode) : Bool :=
  l.length = 3 && (l.get? 0).elim false (fun t => isStrTok t "\x7b-")
    && (l.get? 2).elim false (fun t => isStrTok t "-\x7d")

/-- The quantified-symbol branch of `expand` (lines 79-103 of the source):
`prim` is the expansion of `node[0]`, `op` is the quantifier token `node[1]`. -/
def quantBranch (prim : Option ERes) (op : PNode) : Option ERes :=
  match op with
  | .str "*" => prim.map (fun e => [] :: e)
  | .str "+" => prim
  | .str "?" => prim.map (fun e => [] :: e)
  | .list opl =>
    -- range `{m,n}`
    let rng := parse_range_token opl
    -- `if lo == 0 and (hi is None or hi > lo)`
    if rng.1 = 0 ∧ (rng.2.elim true (fun h => rng.1 < h)) then
      prim.map (fun e => [] :: e)
    else
      -- exactly `lo` repetitions of the first expansion of the primary
      prim.map (fun primary =>
        match primary with
        | [] => [[]]
        | h :: _ => [pyMul h rng.1])
  | .str _ => prim  -- unknown op -> treat as single symbol (dead in source)

/-- The PERMUTE enumeration of `expand` (lines 106-126): cartesian product of the
argument expansions, then every ordering of each chosen tuple, then dedup. -/
def permuteOut (eargs : List ERes) : ERes :=
  pyDedup ((productAll eargs).flatMap (fun choice =>
    (permsLex (List.range choice.length)).map (fun perm =>
      perm.flatMap (fun idx => choice.getD idx []))))

/-- The body of the list case of `expand` (expand_pattern.py lines 69-164),
taking each element of the comma-stripped list paired with the expansion of
that element; a recursive call `expand(x)` of the source becomes the
projection `x.2`, so exactly the elements the source expands are consumed. -/
def expandCore (l1 : List (PNode × Option ERes)) : Option ERes :=
  match l1 with
  | [] => none  -- `node[0]` on an empty list: IndexError in the source
  | _ :: _ =>
    -- strip away brackets
    let l2 := if isBracketed (l1.map Prod.fst) then (l1.drop 1).dropLast else l1
    let nodes := l2.map Prod.fst
    -- symbol with quantifier
    if isQuantShape nodes then
      match l2 with
      | [(_, prim), (op, _)] => quantBranch prim op
      | _ => none  -- unreachable: l2 has length 2
    -- PERMUTE
    else if isPermuteShape nodes then
      let args := (l2.drop 2).dropLast
      (args.mapM Prod.snd).map permuteOut
    -- alternation
    else if isAltShape nodes then
      match l2 with
      | [(_, a), _, (_, b)] => do
        let ra ← a
        let rb ← b
        pure (ra ++ rb)
      | _ => none  -- unreachable: l2 has length 3
    -- empty pattern `()` case
    else if isParenShape nodes then
      some [[]]
    -- excluded pattern -> no contribution
    else if isExclShape nodes then
      some [[]]
    -- generic concatenation: expand children and concat cartesian product
    else
      (l2.mapM Prod.snd).map (fun parts => pyDedup (concatAcc parts))

mutual

/-- `expand` from expand_pattern.py.  `none` models an uncaught Python
exception; the defined cases agree with the source line by line. -/
def expand : PNode → Option ERes
  | .str s => some (expandStr s)
  | .list l =>
      -- `node = _strip_commas(node)` followed by the list-case body; stripping
      -- the (element, expansion) pairs by their element equals pairing the
      -- stripped element list, and unused expansions cannot affect the result.
      expandCore ((expandPairs l).filter (fun pr => !isStrTok pr.1 ","))

/-- Pair every element of a token list with its expansion. -/
def expandPairs : List PNode → List (PNode × Option ERes)
  | [] => []
  | x :: xs => (x, expand x) :: expandPairs xs

end

/-!
Part 2: the condition synthesizer and range builders (src/rewrite.py).

Strings are processed on `String.data` (lists of characters) so that every
definition reduces inside the kernel.  Regular expressions of the source are
modelled as deterministic matchers over character lists; character classes
are the ASCII readings of `\s`, `\w`, `\d` (the queries the tool processes
are ASCII SQL text).  The `\b` boundary is modelled for word-initial literals,
which all symbol names of a pattern are.
-/

/-- ASCII reading of the regex class `\s` (Python whitespace). -/
def isPySpace (c : Char) : Bool :=
  c = ' ' || c = '\t' || c = '\n' || c = '\r' || c = '\x0b' || c = '\x0c'

/-- ASCII reading of the regex class `\w`. -/
def isWordChar (c : Char) : Bool :=
  c.isAlphanum || c = '_'

/-- Python `str.split()` (split on whitespace runs, no empty parts). -/
def splitWsAux : List Char → List Char → List (List Char)
  | [], acc => if acc.isEmpty then [] else [acc.reverse]
  | c :: cs, acc =>
      if isPySpace c then
        if acc.isEmpty then splitWsAux cs [] else acc.reverse :: splitWsAux cs []
      else splitWsAux cs (c :: acc)

/-- Python `cond.split()`. -/
def splitWs (s : List Char) : List (List Char) :=
  splitWsAux s []

/-- `uses_only_allowed` from rewrite.py: every whitespace-delimited part that
contains a `'.'` must have its text before the first `'.'` in `allowed`. -/
def uses_only_allowed (cond : String) (allowed : List String) : Bool :=
  (splitWs cond.data).all (fun part =>
    if part.any (fun c => c = '.') then
      (String.mk (part.takeWhile (fun c => c ≠ '.'))) ∈ allowed
    else true)

/-- Maximal runs of `\w` characters of a string (the candidate matches of a
`\b...\b`-delimited alternation of word-literals). -/
def wordRunsAux : List Char → List Char → List (List Char)
  | [], acc => if acc.isEmpty then [] else [acc.reverse]
  | c :: cs, acc =>
      if isWordChar c then wordRunsAux cs (c :: acc)
      else if acc.isEmpty then wordRunsAux cs [] else acc.reverse :: wordRunsAux cs []

/-- Maximal word runs of a string. -/
def wordRuns (s : List Char) : List (List Char) :=
  wordRunsAux s []

/-- `win_func_pattern` of rewrite.py:
`\b(PREV|NEXT|FIRST|LAST|LAG|LEAD|FIRST_VALUE|LAST_VALUE)\b` (case sensitive).
Because every alternative consists of word characters and is boundary-delimited,
a match is exactly a maximal word run equal to one of the alternatives. -/
def containsNav (cond : String) : Bool :=
  (wordRuns cond.data).any (fun r =>
    String.mk r ∈ ["PREV", "NEXT", "FIRST", "LAST", "LAG", "LEAD", "FIRST_VALUE", "LAST_VALUE"])

/-- SQL keywords skipped by `add_symbol_prefix` of rewrite.py. -/
def sqlKeywords : List String :=
  ["AND", "OR", "NOT", "NULL", "IS", "IN", "LIKE", "BETWEEN",
   "CASE", "WHEN", "THEN", "ELSE", "END", "TRUE", "FALSE"]

/-- `re.search(rf"\b{re.escape(symbol)}\.", cond)`: an occurrence of
`symbol + "."` whose preceding character is not a word character (the source's
symbols are word-initial, so `\b` is exactly that test).  The Boolean argument
carries whether the previous character was a word character. -/
def hasOwnQualAux (symDot : List Char) : Bool → List Char → Bool
  | prevWord, [] => (!prevWord) && symDot.isEmpty
  | prevWord, c :: cs =>
      ((!prevWord) && symDot.isPrefixOf (c :: cs)) || hasOwnQualAux symDot (isWordChar c) cs

/-- Whether `cond` already contains the qualification `symbol.` (word-bounded). -/
def hasOwnQual (cond symbol : String) : Bool :=
  hasOwnQualAux (symbol.data ++ ['.']) false cond.data

/-- The replacement function `add_prefix` of rewrite.py applied to one matched
word (a maximal word run starting with a letter or underscore): keep SQL
keywords, numeric literals and words directly followed by `'('`, prefix
everything else with `symbol.`. -/
def qualifyWord (symbol : String) (run : List Char) (next : Option Char) : List Char :=
  if pyUpper (String.mk run) ∈ sqlKeywords then run
  else if run.all Char.isDigit then run  -- `\d+(\.\d+)?` fullmatch (dead: run starts with a letter)
  else if next = some '(' then run
  else symbol.data ++ '.' :: run

/-- One flushed word run of the `re.sub(r"\b[a-zA-Z_][a-zA-Z0-9_]*\b", ...)`
scan: runs starting with a letter or underscore are regex matches and go
through `add_prefix`; runs starting with a digit match nowhere (no interior
word boundary) and are kept. -/
def flushRun (symbol : String) (accRev : List Char) (next : Option Char) : List Char :=
  let run := accRev.reverse
  match run with
  | [] => []
  | c :: _ => if c.isAlpha || c = '_' then qualifyWord symbol run next else run

/-- The scan of `re.sub` over the condition text: accumulate maximal word runs
and flush them through `add_prefix`, copying all other characters. -/
def qualScan (symbol : String) : List Char → List Char → List Char
  | acc, [] => flushRun symbol acc none
  | acc, c :: cs =>
      if isWordChar c then qualScan symbol (c :: acc) cs
      else flushRun symbol acc (some c) ++ c :: qualScan symbol [] cs

/-- `add_symbol_prefix` from rewrite.py (renamed): qualify bare column names in
a DEFINE condition with `symbol.` — but only when `cond` does not already
contain `symbol.` anywhere (the source's guarding `re.search`). -/
def add_symbol_qual (cond : String) (symbol : String) : String :=
  if hasOwnQual cond symbol then cond
  else String.mk (qualScan symbol [] cond.data)

/-- Case-insensitive literal match (the source compiles its window regex with
`re.IGNORECASE`); returns the rest of the input on success. -/
def matchCI : List Char → List Char → Option (List Char)
  | [], s => some s
  | _ :: _, [] => none
  | c :: cs, d :: ds => if c.toLower = d.toLower then matchCI cs ds else none

/-- Match a single literal character; returns the rest of the input. -/
def matchChar (c : Char) : List Char → Option (List Char)
  | d :: ds => if d = c then some ds else none
  | [] => none

/-- `\s+`: at least one whitespace character, greedily consumed. -/
def matchWs1 : List Char → Option (List Char)
  | c :: cs => if isPySpace c then some (cs.dropWhile isPySpace) else none
  | [] => none

/-- `\w+`: at least one word character, greedily consumed. -/
def matchWord1 : List Char → Option (List Char)
  | c :: cs => if isWordChar c then some (cs.dropWhile isWordChar) else none
  | [] => none

/-- An optional single character satisfying a predicate. -/
def matchOptChar (p : Char → Bool) : List Char → List Char
  | c :: cs => if p c then cs else c :: cs
  | [] => []

/-- `\d+`: at least one digit, greedily consumed. -/
def matchDigits1 : List Char → Option (List Char)
  | c :: cs => if c.isDigit then some (cs.dropWhile Char.isDigit) else none
  | [] => none

/-- `-?\d+(\.\d+)?`: an optionally signed number with optional fraction. -/
def matchNum (s : List Char) : Option (List Char) :=
  (matchDigits1 (matchOptChar (fun c => c = '-') s)).map (fun s2 =>
    match s2 with
    | '.' :: c :: cs => if c.isDigit then cs.dropWhile Char.isDigit else s2
    | _ => s2)

/-- First window alternative of `build_window_condition_regex`:
`INTERVAL\s+['"]?-?\d+(\.\d+)?['"]?\s+\w+`. -/
def winBranch1 (s : List Char) : Option (List Char) := do
  let s ← matchCI "INTERVAL".data s
  let s ← matchWs1 s
  let s := matchOptChar (fun c => c = '\'' || c = '"') s
  let s ← matchNum s
  let s := matchOptChar (fun c => c = '\'' || c = '"') s
  let s ← matchWs1 s
  matchWord1 s

/-- Second window alternative: `-?\d+(\.\d+)?\s*\w*`. -/
def winBranch2 (s : List Char) : Option (List Char) :=
  (matchNum s).map (fun s1 => (s1.dropWhile isPySpace).dropWhile isWordChar)

/-- `build_window_condition_regex` from rewrite.py, as a matcher: the condition
must have the anchored shape
`^\s* last.order_by \s*-\s* first.order_by \s*<=\s* (window) \s*$`
(case-insensitively); on success the text of the `window` group is returned.
The first alternative of the group starts with `INTERVAL` and the second with
a sign or digit, so committing to a successful first alternative is faithful. -/
def win_match (lastSym firstSym order_by cond : String) : Option String :=
  let step : Option (List Char) := do
    let s := cond.data.dropWhile isPySpace
    let s ← matchCI lastSym.data s
    let s ← matchChar '.' s
    let s ← matchCI order_by.data s
    let s := s.dropWhile isPySpace
    let s ← matchChar '-' s
    let s := s.dropWhile isPySpace
    let s ← matchCI firstSym.data s
    let s ← matchChar '.' s
    let s ← matchCI order_by.data s
    let s := s.dropWhile isPySpace
    let s ← matchChar '<' s
    let s ← matchChar '=' s
    pure (s.dropWhile isPySpace)
  match step with
  | none => none
  | some gs =>
    match (winBranch1 gs).orElse (fun _ => winBranch2 gs) with
    | none => none
    | some rest =>
      if (rest.dropWhile isPySpace).isEmpty then
        some (String.mk (gs.take (gs.length - rest.length)))
      else none

/-- Python `str.replace(old, new)` (all nonoverlapping occurrences, left to
right).  The fuel is the length of the subject and suffices because `old` is
never empty at the call sites; on exhausted fuel the remainder is returned
unchanged. -/
def pyReplaceAux : Nat → List Char → List Char → List Char → List Char
  | 0, s, _, _ => s
  | _ + 1, [], _, _ => []
  | fuel + 1, c :: cs, old, new =>
      if old ≠ [] ∧ old.isPrefixOf (c :: cs) then
        new ++ pyReplaceAux fuel ((c :: cs).drop old.length) old new
      else c :: pyReplaceAux fuel cs old new

/-- Python `s.replace(old, new)`. -/
def pyReplace (s old new : String) : String :=
  String.mk (pyReplaceAux s.data.length s.data old.data new.data)

/-- The window-propagation rewrite of rewrite.py line 199: first replace all
`pattern[0] + "."` by `symbol_seq[0] + "."`, then in the result replace all
`pattern[-1] + "."` by `symbol_seq[-1] + "."`. -/
def propagateWindow (wc p0 pl s0 sl : String) : String :=
  pyReplace (pyReplace wc (p0 ++ ".") (s0 ++ ".")) (pl ++ ".") (sl ++ ".")

/-- `list.index` of Python restricted to the found case (callers guard membership). -/
def pyIndex (l : List String) (s : String) : Nat :=
  match l with
  | [] => 0
  | x :: xs => if x = s then 0 else pyIndex xs s + 1

/-- Stable insertion into a key-sorted list: the new element goes before every
element of strictly larger key and after every element of smaller-or-equal key,
matching the stability of Python's `sorted`. -/
def insSorted (key : String → Nat) (x : String) : List String → List String
  | [] => [x]
  | y :: ys => if key y < key x then y :: insSorted key x ys else x :: y :: ys

/-- Stable sort by a numeric key (Python `sorted(seq, key=...)`). -/
def isort (key : String → Nat) : List String → List String
  | [] => []
  | x :: xs => insSorted key x (isort key xs)

/-- Lines 149-150 of rewrite.py: if the special pattern has no duplicates
(`len(pattern) == len(set(pattern))`), sort the anchor by `pattern.index`;
`none` models the ValueError raised by `pattern.index` on a foreign symbol. -/
def normalizeSS (pattern symbol_seq : List String) : Option (List String) :=
  if (pyDedup pattern).length = pattern.length then
    if symbol_seq.all (fun s => s ∈ pattern) then
      some (isort (pyIndex pattern) symbol_seq)
    else none
  else some symbol_seq

/-- The sequential ordering constraints of rewrite.py lines 153-155:
`s1.order_by <= s2.order_by` for consecutive anchor symbols. -/
def orderingConds (ss : List String) (order_by : String) : List String :=
  (ss.zip ss.tail).map (fun pr =>
    match pr with
    | (s1, s2) => s!"{s1}.{order_by} <= {s2}.{order_by}")

/-- Python `dict(list_of_pairs)`: keys in first-occurrence order, each mapped
to the value of its last binding. -/
def pyDict (l : List (String × List String)) : List (String × List String) :=
  (pyDedup (l.map Prod.fst)).map (fun k =>
    (k, ((l.filter (fun p => p.1 = k)).getLast?).elim [] Prod.snd))

/-- Classification of one DEFINE fragment by the loop body of
`map_symbols_to_conds` (rewrite.py lines 170-193): a window-shaped fragment is
recorded and removed, a fragment using foreign symbols or a navigation
function is dropped, anything else is kept with qualified column names. -/
inductive FragR where
  | window (cond w : String)
  | keep (c : String)
  | drop

/-- Classify one fragment of symbol `sym` exactly as the source loop does. -/
def classifyFrag (pLast pFirst order_by : String) (ss : List String) (sym cond : String) : FragR :=
  match win_match pLast pFirst order_by cond with
  | some w => .window cond w
  | none =>
    if !uses_only_allowed cond ss then .drop
    else if containsNav cond then .drop
    else .keep (add_symbol_qual cond sym)

/-- The inner loop over one symbol's fragment list: kept fragments in order,
and the window matches in order (the source keeps only the last match; the
list's last element is that value). -/
def scanCondList (pLast pFirst order_by : String) (ss : List String) (sym : String)
    (cl : List String) : List String × List (String × String) :=
  cl.foldl (fun st c =>
    match classifyFrag pLast pFirst order_by ss sym c with
    | .window cond w => (st.1, st.2 ++ [(cond, w)])
    | .keep k => (st.1 ++ [k], st.2)
    | .drop => st) ([], [])

/-- The outer loop over `define_dict.items()`: kept fragments are appended to
the output only for symbols of the anchor sequence, window matches are
collected across all symbols of the store. -/
def scanDefine (pLast pFirst order_by : String) (ss : List String)
    (D : List (String × List String)) : List String × List (String × String) :=
  D.foldl (fun st p =>
    let r := scanCondList pLast pFirst order_by ss p.1 p.2
    (st.1 ++ (if p.1 ∈ ss then r.1 else []), st.2 ++ r.2)) ([], [])

/-- `map_symbols_to_conds` from rewrite.py.  `none` models an uncaught Python
exception: the ValueError of `pattern.index` on a foreign anchor symbol, or
the IndexError of `pattern[0]` / `symbol_seq[0]` on an empty list. -/
def map_symbols_to_conds (pattern : List String) (define : List (String × List String))
    (order_by : String) (symbol_seq : List String) (rw : String) :
    Option (List String × Option String) :=
  match normalizeSS pattern symbol_seq with
  | none => none
  | some ss =>
    match pattern.head?, pattern.getLast? with
    | some pFirst, some pLast =>
      let conds0 := if rw = "basic" then orderingConds ss order_by else []
      let scan := scanDefine pLast pFirst order_by ss (pyDict define)
      match scan.2.getLast? with
      | none => some (conds0 ++ scan.1, none)
      | some (wc, w) =>
        match ss.head?, ss.getLast? with
        | some s0, some sl =>
          some (conds0 ++ scan.1 ++ [propagateWindow wc pFirst pLast s0 sl], some w)
        | _, _ => none  -- `symbol_seq[0]` on an empty anchor: IndexError
    | _, _ => none  -- `pattern[0]` on an empty pattern: IndexError

/-- Python truthiness of the optional window text (`if window`). -/
def pyTruthy : Option String → Bool
  | some s => !s.data.isEmpty
  | none => false

/-- Join a list of strings with a separator (`sep.join(...)`). -/
def joinSep (sep : String) : List String → String
  | [] => ""
  | [x] => x
  | x :: y :: ys => x ++ sep ++ joinSep sep (y :: ys)

/-- Python `repr` of an ASCII string without quotes inside. -/
def pyReprStr (s : String) : String :=
  "'" ++ s ++ "'"

/-- Python `str(...)` of a list of strings, e.g. `['A', 'B']`. -/
def pyReprList (l : List String) : String :=
  "[" ++ joinSep ", " (l.map pyReprStr) ++ "]"

/-- `get_basic_time_range` from rewrite.py (the case analysis of its
Definition 3.7): `none` models the IndexError on an empty anchor or pattern,
`some (none, none)` is the fall-through `t_s = t_e = None`. -/
def get_basic_time_range (symbol_seq pattern : List String) (order_by : String)
    (window : Option String) : Option (Option String × Option String) :=
  match symbol_seq.head?, symbol_seq.getLast?, pattern.head?, pattern.getLast? with
  | some s0, some sl, some p0, some pl =>
    let w := window.getD ""
    if s0 = p0 ∧ sl = pl then
      some (some s!"{s0}.{order_by}", some s!"{sl}.{order_by}")
    else if pyTruthy window ∧ sl = pl then
      some (some s!"{sl}.{order_by} - {w}", some s!"{sl}.{order_by}")
    else if pyTruthy window ∧ s0 = p0 then
      some (some s!"{s0}.{order_by}", some s!"{s0}.{order_by} + {w}")
    else if pyTruthy window then
      some (some s!"{sl}.{order_by} - {w}", some s!"{s0}.{order_by} + {w}")
    else
      some (none, none)
  | _, _, _, _ => none  -- IndexError

/-- `build_basic_ranges_sub` from rewrite.py: one SELECT of the ranges CTE;
raises (as `.error`) the source's ValueError when no time range is available. -/
def build_basic_ranges_sub (pattern symbol_seq : List String)
    (order_by dataset_name : String) (conds : List String) (window : Option String) :
    Except String String :=
  match get_basic_time_range symbol_seq pattern order_by window with
  | none => .error "IndexError"
  | some (some t_s, some t_e) =>
    let sym_join := joinSep ", " (symbol_seq.map (fun sym => s!"{dataset_name} AS {sym}"))
    let cond_str := joinSep "\n\t\tAND " conds
    .ok (joinSep "\n"
      [s!"\tSELECT {t_s} as t_s, {t_e} as t_e \t -- pattern: {pyReprList pattern} subseq: {pyReprList symbol_seq}",
       s!"\tFROM {sym_join}",
       s!"\tWHERE {cond_str}"])
  | some (_, _) => .error "Cannot compute time range: insufficient endpoints or window"

mutual

/-- `flatten` from rewrite.py applied to a pattern token tree. -/
def flattenP : PNode → List String
  | .str s => [s]
  | .list l => flattenL l

def flattenL : List PNode → List String
  | [] => []
  | x :: xs => flattenP x ++ flattenL xs

end

/-- Python `str.isalpha()` on ASCII strings. -/
def pyIsalpha (s : String) : Bool :=
  s.data ≠ [] && s.data.all Char.isAlpha

/-- `build_input_bucketized` from rewrite.py. -/
def build_input_bucketized (dataset_name order_by window : String) : String :=
  joinSep "\n"
    ["WITH input_bucketized AS (",
     s!"\tSELECT *, cast({order_by} / {window} AS bigint) AS bk",
     s!"\tFROM {dataset_name}",
     "),\n"]

/-- `get_bucket_time_range` from rewrite.py (Definition 3.10): total in the
source apart from the indexing on an empty list, hence the `Option`. -/
def get_bucket_time_range (symbol_seq pattern : List String) : Option (String × String) :=
  match symbol_seq.head?, symbol_seq.getLast?, pattern.head?, pattern.getLast? with
  | some s0, some sl, some p0, some pl =>
    if s0 = p0 ∧ sl = pl then some (s!"{s0}.bk", s!"{sl}.bk")
    else if sl = pl then some (s!"{sl}.bk - 1", s!"{sl}.bk")
    else if s0 = p0 then some (s!"{s0}.bk", s!"{s0}.bk + 1")
    else some (s!"{sl}.bk - 1", s!"{s0}.bk + 1")
  | _, _, _, _ => none  -- IndexError

/-- `build_bucketized_ranges` from rewrite.py: the one- or two-part ranges CTE. -/
def build_bucketized_ranges (pattern symbol_seq : List String) (conds : List String) :
    Option String :=
  match get_bucket_time_range symbol_seq pattern with
  | none => none
  | some (bk_s, bk_e) =>
    match symbol_seq with
    | [] => none  -- unreachable: get_bucket_time_range already indexed the list
    | s0 :: rest =>
      let sym_join := joinSep ", " (symbol_seq.map (fun sym => s!"input_bucketized AS {sym}"))
      let cond_same_bucket := rest.map (fun sym => s!"{s0}.bk = {sym}.bk")
      let r1 := joinSep "\n"
        ["ranges AS (",
         s!"\tSELECT {bk_s} as bk_s, {bk_e} as bk_e",
         s!"\tFROM {sym_join}",
         "\tWHERE " ++ joinSep "\n\t\tAND " (cond_same_bucket ++ conds)]
      if symbol_seq.length = 1 then some (r1 ++ "\n),")
      else
        let sl := symbol_seq.getLast?.getD s0
        let cond_two_buckets := s!"{s0}.bk + 1 = {sl}.bk" ::
          (if 2 < symbol_seq.length then
            (symbol_seq.zip symbol_seq.tail).map (fun pr =>
              match pr with
              | (a, b) => s!"{a}.bk <= {b}.bk")
          else [])
        let r2 := joinSep "\n"
          [s!"\tSELECT {bk_s} as bk_s, {bk_e} as bk_e",
           s!"\tFROM {sym_join}",
           "\tWHERE " ++ joinSep "\n\t\tAND " (cond_two_buckets ++ conds),
           "),"]
        some (joinSep "\n\tUNION\n" [r1, r2])

/-- `build_buckets` from rewrite.py (a fixed dedented text). -/
def build_buckets : String :=
  "\nbuckets AS (\n\tSELECT DISTINCT bk FROM ranges\n\tCROSS JOIN UNNEST(sequence(ranges.bk_s, ranges.bk_e)) AS t(bk)\n), "

/-- `build_bucketized_prefilter` from rewrite.py (a fixed dedented text). -/
def build_bucketized_prefilter : String :=
  "\nprefilter AS (\n\tSELECT i.* FROM input_bucketized AS i, buckets AS b\n\tWHERE i.bk = b.bk\n)\n"

/-- `rewrite_bucketized` from rewrite.py, with the clauses dictionary passed as
its used components (`define`, `order_by[0]`, `pattern`).  `.error` carries the
exception text: the guard raises ValueError("Bucketized Prefilter relies on
the (missing) Pattern Window Condition") when no window was extracted, and a
non-alphabetic joined pattern leaves `new_query` unbound (UnboundLocalError). -/
def rewrite_bucketized (define : List (String × List String)) (order_by : String)
    (patternNode : PNode) (symbol_seq : List String) (dataset_name full_mr : String) :
    Except String String :=
  let pattern_literals := flattenP patternNode
  if pyIsalpha (joinSep "" pattern_literals) then
    match map_symbols_to_conds pattern_literals define order_by symbol_seq "bucket" with
    | none => .error "ValueError"  -- propagated from map_symbols_to_conds
    | some (conds, window) =>
      if !pyTruthy window then
        .error "Bucketized Prefilter relies on the (missing) Pattern Window Condition"
      else
        let w := window.getD ""
        match build_bucketized_ranges pattern_literals symbol_seq conds with
        | none => .error "IndexError"
        | some ranges =>
          .ok (build_input_bucketized dataset_name order_by w ++ ranges
               ++ build_buckets ++ build_bucketized_prefilter
               ++ s!"SELECT * FROM prefilter MATCH_RECOGNIZE (\n\t{full_mr}\n)")
  else .error "UnboundLocalError: new_query"

/-!
Spec-side definitions: a direct, scan-all formulation of the window search and
of the per-symbol filtering, used to state the claims about
`map_symbols_to_conds`, plus the well-formedness predicate of pattern trees.
-/

/-- All window-shaped fragments of a predicate store, in traversal order. -/
def windowMatches (pLast pFirst order_by : String) (D : List (String × List String)) :
    List (String × String) :=
  (D.flatMap Prod.snd).filterMap (fun c =>
    (win_match pLast pFirst order_by c).map (fun w => (c, w)))

/-- The per-symbol surviving fragments in store order: fragments of anchor
symbols that are not window-shaped, reference only anchor symbols, contain no
navigation function, qualified with their own symbol. -/
def keptBody (pLast pFirst order_by : String) (ss : List String)
    (D : List (String × List String)) : List String :=
  D.flatMap (fun p =>
    if p.1 ∈ ss then
      (((p.2.filter (fun c => (win_match pLast pFirst order_by c).isNone)).filter
          (fun c => uses_only_allowed c ss && !containsNav c)).map
        (fun c => add_symbol_qual c p.1))
    else [])

/-- Well-formed pattern trees: every composite node still has an element after
comma stripping.  `expand` never raises on such trees. -/
inductive WFP : PNode → Prop where
  | str (s : String) : WFP (.str s)
  | list (l : List PNode) (hne : stripCommas l ≠ []) (hall : ∀ x ∈ l, WFP x) : WFP (.list l)

/-- The token list of a range quantifier `{lo,hi}` with optional bounds, e.g.
`['{','3',',','5','}']`, `['{',',','4','}']`, `['{','3',',','}']`. -/
def rangeTokL (los his : Option String) : List PNode :=
  [PNode.str "\x7b"] ++ (los.elim [] (fun s => [PNode.str s]))
    ++ [PNode.str ","] ++ (his.elim [] (fun s => [PNode.str s])) ++ [PNode.str "\x7d"]

/-- A range-quantifier token as a pattern node. -/
def rangeTok (los his : Option String) : PNode :=
  .list (rangeTokL los his)

/-!
Part 3: supporting lemmas.
-/

theorem isStrTok_eq_false {p : PNode} {s : String} (h : p ≠ .str s) : isStrTok p s = false := by
  cases p with
  | str u =>
    simp only [isStrTok, decide_eq_false_iff_not]
    intro hu
    exact h (by rw [hu])
  | list l => rfl

theorem expandPairs_eq (l : List PNode) :
    expandPairs l = l.map (fun x => (x, expand x)) := by
  induction l with
  | nil => rfl
  | cons x xs ih => simp [expandPairs, ih]

theorem expand_list_eq (l : List PNode) :
    expand (.list l) = expandCore ((stripCommas l).map (fun x => (x, expand x))) := by
  show expandCore ((expandPairs l).filter (fun pr => !isStrTok pr.1 ",")) = _
  rw [expandPairs_eq, List.filter_map]
  rfl

/-- The generalized step of `pyDedup`: the fold extends its accumulator with a
sublist of fresh elements. -/
theorem pyDedup_go (l : List α) [DecidableEq α] :
    ∀ acc : List α, acc.Nodup →
      ∃ t, t.Sublist l ∧
        (l.foldl (fun acc x => if x ∈ acc then acc else acc ++ [x]) acc = acc ++ t) ∧
        (acc ++ t).Nodup := by
  induction l with
  | nil => exact fun acc h => ⟨[], by simp, by simp, by simpa using h⟩
  | cons x xs ih =>
    intro acc hacc
    by_cases hx : x ∈ acc
    · obtain ⟨t, ht, heq, hnd⟩ := ih acc hacc
      exact ⟨t, ht.cons x, by simpa [hx] using heq, hnd⟩
    · obtain ⟨t, ht, heq, hnd⟩ := ih (acc ++ [x]) (by simp [List.nodup_append, hacc, hx])
      refine ⟨x :: t, ht.cons₂ x, ?_, ?_⟩
      · simp only [List.foldl_cons, if_neg hx]
        rw [heq, List.append_assoc]
        rfl
      · rw [List.append_assoc] at hnd
        exact hnd

theorem pyDedup_nodup (l : List α) [DecidableEq α] : (pyDedup l).Nodup := by
  obtain ⟨t, _, heq, hnd⟩ := pyDedup_go l [] List.nodup_nil
  simpa [pyDedup, heq] using hnd

theorem pyDedup_sublist (l : List α) [DecidableEq α] : (pyDedup l).Sublist l := by
  obtain ⟨t, ht, heq, _⟩ := pyDedup_go l [] List.nodup_nil
  simpa [pyDedup, heq] using ht

theorem nodup_of_pyDedup_length {l : List α} [DecidableEq α]
    (h : (pyDedup l).length = l.length) : l.Nodup := by
  have := (pyDedup_sublist l).eq_of_length h
  rw [← this]
  exact pyDedup_nodup l

theorem pyDedup_eq_self {l : List α} [DecidableEq α] (h : l.Nodup) : pyDedup l = l := by
  have main : ∀ (l' acc : List α), (∀ x ∈ l', x ∉ acc) → l'.Nodup →
      l'.foldl (fun acc x => if x ∈ acc then acc else acc ++ [x]) acc = acc ++ l' := by
    intro l'
    induction l' with
    | nil => simp
    | cons x xs ih =>
      intro acc hdisj hnd
      have hx : x ∉ acc := hdisj x (by simp)
      have h1 : ∀ y ∈ xs, y ∉ acc ++ [x] := by
        intro y hy
        simp only [List.mem_append, List.mem_singleton]
        rintro (hya | rfl)
        · exact hdisj y (by simp [hy]) hya
        · exact (List.nodup_cons.mp hnd).1 hy
      simp only [List.foldl_cons, if_neg hx]
      rw [ih (acc ++ [x]) h1 (List.nodup_cons.mp hnd).2]
      simp
  simpa [pyDedup] using main l [] (by simp) h

theorem stripCommas_pair {p op : PNode} (hp : p ≠ .str ",") (hop : op ≠ .str ",") :
    stripCommas [p, op] = [p, op] := by
  simp [stripCommas, List.filter, isStrTok_eq_false hp, isStrTok_eq_false hop]

theorem expand_quant_node (p op : PNode) (hp : p ≠ .str ",") (hop : op ≠ .str ",")
    (hopr : op ≠ .str ")") (hq : has_quantifier [p, op] = true) :
    expand (.list [p, op]) = quantBranch (expand p) op := by
  rw [expand_list_eq, stripCommas_pair hp hop]
  have hbr : isBracketed [p, op] = false := by
    simp [isBracketed, isStrTok_eq_false hopr]
  have hq2 : isQuantShape [p, op] = true := by
    simp [isQuantShape, hq]
  simp only [expandCore, List.map_cons, List.map_nil, hbr]
  simp [hq2]

theorem pyIsdigit_ne_comma {s : String} (h : pyIsdigit s = true) : s ≠ "," := by
  intro hs
  subst hs
  simp [pyIsdigit] at h

theorem parse_rangeTok (los his : Option String)
    (hlos : ∀ s, los = some s → pyIsdigit s = true)
    (hhis : ∀ s, his = some s → pyIsdigit s = true) :
    parse_range_token (rangeTokL los his) = (los.elim 0 pyInt, his.map pyInt) := by
  cases los with
  | none =>
    cases his with
    | none => rfl
    | some b =>
      have hb := hhis b rfl
      simp [parse_range_token, rangeTokL, commaIdx, isStrTok,
        pyIsdigit_ne_comma hb, hb]
  | some a =>
    have ha := hlos a rfl
    cases his with
    | none =>
      simp [parse_range_token, rangeTokL, commaIdx, isStrTok,
        pyIsdigit_ne_comma ha, ha]
    | some b =>
      have hb := hhis b rfl
      simp [parse_range_token, rangeTokL, commaIdx, isStrTok,
        pyIsdigit_ne_comma ha, pyIsdigit_ne_comma hb, ha, hb]

/-!
Part 4: the claims.
-/

/-- C1: for every pattern node `p` other than a bare `','` token (which the
comma stripping deletes before the quantifier shape is recognised), a node
`[p, '*']` expands to the empty sequence followed by the expansions of `p`,
`[p, '+']` expands to exactly the expansions of `p`, and `[p, '?']` expands
like `'*'`; and the pattern `(A* B+) D*` expands to
`[[B], [B,D], [A,B], [A,B,D]]`, which contains `[B]` and `[A,B,D]` and does
not contain `[A,B,A,B]`. -/
theorem c1_quantifier_policy (p : PNode) (hp : p ≠ .str ",") :
    (expand (.list [p, .str "*"]) = (expand p).map (fun e => [] :: e)
     ∧ expand (.list [p, .str "+"]) = expand p
     ∧ expand (.list [p, .str "?"]) = (expand p).map (fun e => [] :: e))
    ∧ (expand (.list [.list [.str "(", .list [.list [.str "A", .str "*"],
          .list [.str "B", .str "+"]], .str ")"], .list [.str "D", .str "*"]])
        = some [["B"], ["B", "D"], ["A", "B"], ["A", "B", "D"]]
       ∧ ["B"] ∈ [["B"], ["B", "D"], ["A", "B"], ["A", "B", "D"]]
       ∧ ["A", "B", "D"] ∈ [["B"], ["B", "D"], ["A", "B"], ["A", "B", "D"]]
       ∧ ["A", "B", "A", "B"] ∉ [["B"], ["B", "D"], ["A", "B"], ["A", "B", "D"]]) := by
  refine ⟨⟨?_, ?_, ?_⟩, by decide, by decide, by decide, by decide⟩
  · rw [expand_quant_node p (.str "*") hp (by simp) (by simp) rfl]
    rfl
  · rw [expand_quant_node p (.str "+") hp (by simp) (by simp) rfl]
    rfl
  · rw [expand_quant_node p (.str "?") hp (by simp) (by simp) rfl]
    rfl

/-- C1 (counterexample): for the pattern node `p = ','` the claimed equation
for `Star` fails: the comma is stripped first, so `[',', '*']` expands to
`[['*']]` and not to the empty sequence followed by the expansions of `','`. -/
theorem c1_cex :
    expand (.list [.str ",", .str "*"]) ≠ (expand (.str ",")).map (fun e => [] :: e) := by
  decide

/-- C1 (witness). -/
theorem c1_witness :
    PNode.str "X" ≠ PNode.str "," ∧ expand (.list [.str "X", .str "*"]) = some [[], ["X"]] := by
  have h := c1_quantifier_policy (.str "X") (by simp)
  exact ⟨by simp, by rw [h.1.1]; rfl⟩

/-- C2: for every pattern node `p` other than a bare `','` token and every
range quantifier `{lo,hi}` with digit-string bounds: if `lo = 0` and `hi` is
unset or positive, the node expands to the empty sequence plus the expansions
of `p`; otherwise it expands to exactly one sequence, `lo` concatenated
repetitions of the first expansion of `p` (the other expansions are
discarded); and `C{3,5}` expands to exactly `[[C,C,C]]`. -/
theorem c2_range_policy (p : PNode) (los his : Option String) (hp : p ≠ .str ",")
    (hlos : ∀ s, los = some s → pyIsdigit s = true)
    (hhis : ∀ s, his = some s → pyIsdigit s = true) :
    (expand (.list [p, rangeTok los his]) =
      if (los.elim 0 pyInt) = 0 ∧ ((his.map pyInt).elim true (fun h => los.elim 0 pyInt < h)) then
        (expand p).map (fun e => [] :: e)
      else
        (expand p).map (fun primary =>
          match primary with
          | [] => [[]]
          | h :: _ => [pyMul h (los.elim 0 pyInt)]))
    ∧ expand (.list [.str "C", rangeTok (some "3") (some "5")]) = some [["C", "C", "C"]] := by
  constructor
  · rw [expand_quant_node p (rangeTok los his) hp (by simp [rangeTok]) (by simp [rangeTok]) ?_]
    · show quantBranch (expand p) (.list (rangeTokL los his)) = _
      simp only [quantBranch, parse_rangeTok los his hlos hhis]
    · cases los <;> rfl
  · decide

/-- C2 (counterexample): for the pattern node `p = ','` the claimed rule
fails: the comma is stripped, so `[',', '{3,5}']` expands the leftover range
token as a concatenation of its literal tokens instead of producing three
repetitions of the first expansion of `','`. -/
theorem c2_cex :
    expand (.list [.str ",", rangeTok (some "3") (some "5")]) ≠
      (expand (.str ",")).map (fun primary =>
        match primary with
        | [] => [[]]
        | h :: _ => [pyMul h 3]) := by
  decide

/-- C2 (witness). -/
theorem c2_witness :
    PNode.str "C" ≠ PNode.str ","
    ∧ (∀ s, (some "3" : Option String) = some s → pyIsdigit s = true)
    ∧ expand (.list [.str "C", rangeTok (some "3") (some "5")]) = some [["C", "C", "C"]] := by
  have h := c2_range_policy (.str "C") (some "3") (some "5") (by simp)
    (by intro s hs; cases hs; rfl) (by intro s hs; cases hs; rfl)
  exact ⟨by simp, by intro s hs; cases hs; rfl, h.2⟩

theorem map_fst_expandMap (l : List PNode) :
    (l.map (fun x => (x, expand x))).map Prod.fst = l := by
  induction l with
  | nil => rfl
  | cons x xs ih => simp only [List.map_cons, ih]

/-- C3: the claim's blanket no-duplicates guarantee is refuted below; what
holds is that the PERMUTE branch and the generic-concatenation branch (every
list node that is neither a quantified pair nor an alternation after comma
stripping and bracket stripping) deduplicate their output in first-seen
order.  The quantifier and alternation branches concatenate sub-results
without deduplication and can return duplicates. -/
theorem c3_dedup (l : List PNode) (h1 : stripCommas l ≠ [])
    (h2 : isQuantShape (bracketStrip (stripCommas l)) = false)
    (h3 : isAltShape (bracketStrip (stripCommas l)) = false)
    (r : ERes) (hr : expand (.list l) = some r) : r.Nodup := by
  rw [expand_list_eq] at hr
  obtain ⟨q, qs, hpq⟩ : ∃ q qs, (stripCommas l).map (fun x => (x, expand x)) = q :: qs := by
    cases hsc : stripCommas l with
    | nil => exact absurd hsc h1
    | cons a as => exact ⟨(a, expand a), as.map (fun x => (x, expand x)), rfl⟩
  rw [hpq] at hr
  have hfst : (q :: qs).map Prod.fst = stripCommas l := by
    rw [← hpq, map_fst_expandMap]
  simp only [expandCore] at hr
  rw [hfst] at hr
  set l2 := if isBracketed (stripCommas l) then ((q :: qs).drop 1).dropLast else q :: qs with hl2
  have hnodes : l2.map Prod.fst = bracketStrip (stripCommas l) := by
    rw [hl2, bracketStrip]
    by_cases hb : isBracketed (stripCommas l)
    · rw [if_pos hb, if_pos hb, ← hfst, List.map_dropLast, List.map_drop]
    · rw [if_neg hb, if_neg hb, hfst]
  rw [hnodes] at hr
  rw [if_neg (by simp [h2])] at hr
  by_cases hperm : isPermuteShape (bracketStrip (stripCommas l))
  · rw [if_pos (by simp [hperm])] at hr
    obtain ⟨parts, _, hout⟩ := Option.map_eq_some'.mp hr
    rw [← hout]
    exact pyDedup_nodup _
  · rw [if_neg (by simp [hperm]), if_neg (by simp [h3])] at hr
    by_cases hpar : isParenShape (bracketStrip (stripCommas l))
    · rw [if_pos (by simp [hpar])] at hr
      cases hr
      simp
    · rw [if_neg (by simp [hpar])] at hr
      by_cases hexc : isExclShape (bracketStrip (stripCommas l))
      · rw [if_pos (by simp [hexc])] at hr
        cases hr
        simp
      · rw [if_neg (by simp [hexc])] at hr
        obtain ⟨parts, _, hout⟩ := Option.map_eq_some'.mp hr
        rw [← hout]
        exact pyDedup_nodup _

/-- C3 (counterexample): the starred star `(A*)*` hits the quantifier branch,
which prepends `[]` to a result already containing `[]`: the output has two
equal members, refuting the pairwise-distinctness for every construct. -/
theorem c3_cex :
    expand (.list [.list [.str "A", .str "*"], .str "*"]) = some [[], [], ["A"]]
    ∧ ¬ ([[], [], ["A"]] : ERes).Nodup := by
  constructor
  · rfl
  · decide

/-- C3 (witness). -/
theorem c3_witness :
    stripCommas [PNode.str "A", PNode.str "B"] ≠ []
    ∧ ([["A", "B"]] : ERes).Nodup := by
  have h1 : stripCommas [PNode.str "A", PNode.str "B"] ≠ [] := by
    simp [stripCommas, isStrTok]
  exact ⟨h1, c3_dedup [PNode.str "A", PNode.str "B"] h1 (by decide) (by decide) _ rfl⟩

theorem mapM_snd_isSome {l : List (PNode × Option ERes)}
    (h : ∀ pr ∈ l, pr.2.isSome) : (l.mapM Prod.snd).isSome := by
  induction l with
  | nil => rfl
  | cons x xs ih =>
    obtain ⟨y, hy⟩ := Option.isSome_iff_exists.mp (h x (by simp))
    obtain ⟨ys, hys⟩ := Option.isSome_iff_exists.mp (ih (fun pr hpr => h pr (by simp [hpr])))
    rw [List.mapM_cons, hy, hys]
    rfl

theorem quantBranch_isSome {prim : Option ERes} (op : PNode) (h : prim.isSome) :
    (quantBranch prim op).isSome := by
  unfold quantBranch
  split
  · simpa using h
  · exact h
  · simpa using h
  · dsimp only
    split
    · simpa using h
    · simpa using h
  · exact h

theorem expandCore_isSome (pairs : List (PNode × Option ERes)) (hne : pairs ≠ [])
    (hall : ∀ pr ∈ pairs, pr.2.isSome) : (expandCore pairs).isSome := by
  obtain ⟨q, qs, rfl⟩ : ∃ q qs, pairs = q :: qs := by
    cases pairs with
    | nil => exact absurd rfl hne
    | cons q qs => exact ⟨q, qs, rfl⟩
  simp only [expandCore]
  set l2 := if isBracketed ((q :: qs).map Prod.fst) then ((q :: qs).drop 1).dropLast
            else q :: qs with hl2
  have hsub : ∀ pr ∈ l2, pr ∈ q :: qs := by
    intro pr hpr
    rw [hl2] at hpr
    by_cases hb : isBracketed ((q :: qs).map Prod.fst)
    · rw [if_pos hb] at hpr
      exact (List.drop_sublist 1 (q :: qs)).subset ((List.dropLast_sublist _).subset hpr)
    · rwa [if_neg hb] at hpr
  have hall2 : ∀ pr ∈ l2, pr.2.isSome := fun pr hpr => hall pr (hsub pr hpr)
  by_cases hq : isQuantShape (l2.map Prod.fst)
  · rw [if_pos hq]
    have hlen : l2.length = 2 := by
      have := (Bool.and_eq_true _ _).mp hq
      simpa using this.1
    obtain ⟨a, b, hab⟩ : ∃ a b, l2 = [a, b] := by
      match l2, hlen with
      | [a, b], _ => exact ⟨a, b, rfl⟩
    obtain ⟨a1, a2⟩ := a
    obtain ⟨b1, b2⟩ := b
    rw [hab]
    exact quantBranch_isSome b1 (hall2 (a1, a2) (by rw [hab]; simp))
  · rw [if_neg hq]
    by_cases hp : isPermuteShape (l2.map Prod.fst)
    · rw [if_pos hp]
      have : ((l2.drop 2).dropLast.mapM Prod.snd).isSome := by
        apply mapM_snd_isSome
        intro pr hpr
        exact hall2 pr ((List.drop_sublist 2 l2).subset ((List.dropLast_sublist _).subset hpr))
      obtain ⟨vs, hvs⟩ := Option.isSome_iff_exists.mp this
      rw [hvs]
      rfl
    · rw [if_neg hp]
      by_cases halt : isAltShape (l2.map Prod.fst)
      · rw [if_pos halt]
        have hlen : l2.length = 3 := by
          have := (Bool.and_eq_true _ _).mp halt
          simpa using this.1
        obtain ⟨a, b, c, habc⟩ : ∃ a b c, l2 = [a, b, c] := by
          match l2, hlen with
          | [a, b, c], _ => exact ⟨a, b, c, rfl⟩
        obtain ⟨a1, a2⟩ := a
        obtain ⟨c1, c2⟩ := c
        obtain ⟨ra, hra⟩ := Option.isSome_iff_exists.mp
          (hall2 (a1, a2) (by rw [habc]; simp))
        obtain ⟨rc, hrc⟩ := Option.isSome_iff_exists.mp
          (hall2 (c1, c2) (by rw [habc]; simp))
        have hra2 : a2 = some ra := hra
        have hrc2 : c2 = some rc := hrc
        rw [habc]
        simp only [hra2, hrc2]
        rfl
      · rw [if_neg halt]
        by_cases hpar : isParenShape (l2.map Prod.fst)
        · rw [if_pos hpar]
          rfl
        · rw [if_neg hpar]
          by_cases hexc : isExclShape (l2.map Prod.fst)
          · rw [if_pos hexc]
            rfl
          · rw [if_neg hexc]
            obtain ⟨vs, hvs⟩ := Option.isSome_iff_exists.mp (mapM_snd_isSome hall2)
            rw [hvs]
            rfl

/-- C10: `expand` does not return for every input: the empty composite node
(and any composite that is empty after comma stripping) hits the source's
`node[0]` IndexError (counterexample below).  What holds is totality on
well-formed trees: if every composite node of the input still has an element
after comma stripping, `expand` terminates with a value and no error branch
is reachable. -/
theorem c10_total (p : PNode) (h : WFP p) : (expand p).isSome := by
  induction h with
  | str s => rfl
  | list l hne _ ih =>
    rw [expand_list_eq]
    apply expandCore_isSome
    · intro hcon
      exact hne (List.map_eq_nil_iff.mp hcon)
    · intro pr hpr
      obtain ⟨x, hx, rfl⟩ := List.mem_map.mp hpr
      exact ih x (List.mem_filter.mp hx).1

/-- C10 (counterexample): the empty composite node raises IndexError in
`expand` (modelled as `none`): the list-indexing error branch is reachable. -/
theorem c10_cex : expand (.list []) = none := rfl

/-- C10 (witness). -/
theorem c10_witness :
    WFP (.list [.str "A", .str "B"]) ∧ (expand (.list [.str "A", .str "B"])).isSome = true := by
  have hw : WFP (.list [.str "A", .str "B"]) := by
    refine WFP.list _ (by simp [stripCommas, isStrTok]) ?_
    intro x hx
    rcases List.mem_cons.mp hx with rfl | hx2
    · exact WFP.str "A"
    · rcases List.mem_cons.mp hx2 with rfl | hx3
      · exact WFP.str "B"
      · cases hx3
  exact ⟨hw, c10_total _ hw⟩

theorem permsLex_spec (n : Nat) :
    ∀ l : List Nat, l.length = n → l.Nodup →
      (permsLexF n l).length = n.factorial
      ∧ (permsLexF n l).Nodup
      ∧ ∀ p ∈ permsLexF n l, p.Perm l := by
  induction n using Nat.strong_induction_on with
  | _ n ih =>
    intro l hlen hnd
    match n, l, hlen with
    | 0, [], _ => exact ⟨rfl, by simp [permsLexF], by simp [permsLexF]⟩
    | m + 1, x :: xs, hlen =>
      have hm : xs.length = m := by simpa using hlen
      have herase : ∀ y ∈ x :: xs, ((x :: xs).erase y).length = m := by
        intro y hy
        rw [List.length_erase_of_mem hy]
        simpa using hlen
      have hin : ∀ y ∈ x :: xs, (permsLexF m ((x :: xs).erase y)).length = m.factorial
          ∧ (permsLexF m ((x :: xs).erase y)).Nodup
          ∧ ∀ p ∈ permsLexF m ((x :: xs).erase y), p.Perm ((x :: xs).erase y) := by
        intro y hy
        exact ih m (by omega) _ (herase y hy) (hnd.erase y)
      refine ⟨?_, ?_, ?_⟩
      · rw [permsLexF, List.length_flatMap]
        simp only [Function.comp_def]
        have hmap : (x :: xs).map (fun y => ((permsLexF m ((x :: xs).erase y)).map (fun p => y :: p)).length)
            = List.replicate (x :: xs).length m.factorial := by
          rw [← List.map_const']
          apply List.map_congr_left
          intro y hy
          rw [List.length_map, (hin y hy).1]
        rw [hmap, List.sum_replicate, smul_eq_mul]
        simp only [List.length_cons, hm]
        rw [Nat.factorial_succ]
      · rw [permsLexF, List.nodup_flatMap]
        constructor
        · intro y hy
          exact ((hin y hy).2.1).map (fun p q h => (List.cons.injEq _ _ _ _ ▸ h).2)
        · have : ∀ a ∈ x :: xs, ∀ b ∈ x :: xs, a ≠ b →
              Function.onFun List.Disjoint (fun y => (permsLexF m ((x :: xs).erase y)).map (fun p => y :: p)) a b := by
            intro a _ b _ hab
            intro p hpa hpb
            obtain ⟨pa, _, hpa2⟩ := List.mem_map.mp hpa
            obtain ⟨pb, _, hpb2⟩ := List.mem_map.mp hpb
            rw [← hpa2] at hpb2
            exact absurd (List.cons.injEq _ _ _ _ ▸ hpb2.symm).1 hab
          exact List.Pairwise.imp_of_mem (fun ha hb h => this _ ha _ hb h) hnd
      · intro p hp
        rw [permsLexF] at hp
        obtain ⟨y, hy, hpmem⟩ := List.mem_flatMap.mp hp
        obtain ⟨q, hq, rfl⟩ := List.mem_map.mp hpmem
        have hqperm := (hin y hy).2.2 q hq
        exact (hqperm.cons y).trans (List.perm_cons_erase hy).symm

theorem stripCommas_eq_self {l : List PNode} (h : ∀ t ∈ l, t ≠ .str ",") :
    stripCommas l = l := by
  apply List.filter_eq_self.mpr
  intro t ht
  simp [isStrTok_eq_false (h t ht)]

theorem mapM_snd_expandMap (args : List PNode) :
    (args.map (fun x => (x, expand x))).mapM Prod.snd = args.mapM expand := by
  induction args with
  | nil => rfl
  | cons a as ih => rw [List.map_cons, List.mapM_cons, List.mapM_cons, ih]

theorem mapM_expand_forall {args : List PNode} {syms : List String}
    (h : List.Forall₂ (fun a s => expand a = some [[s]]) args syms) :
    args.mapM expand = some (syms.map (fun s => [[s]])) := by
  induction h with
  | nil => rfl
  | cons ha _ ih =>
    rw [List.mapM_cons, ha, ih]
    rfl

theorem expandCore_permuteBranch (q : PNode × Option ERes) (qs : List (PNode × Option ERes))
    (hbr : isBracketed ((q :: qs).map Prod.fst) = false)
    (hq : isQuantShape ((q :: qs).map Prod.fst) = false)
    (hp : isPermuteShape ((q :: qs).map Prod.fst) = true) :
    expandCore (q :: qs) = ((((q :: qs).drop 2).dropLast).mapM Prod.snd).map permuteOut := by
  have hbrc : (isBracketed (List.map Prod.fst (q :: qs)) = true) = False := by rw [hbr]; simp
  have hqc : (isQuantShape (List.map Prod.fst (q :: qs)) = true) = False := by rw [hq]; simp
  have hpc : (isPermuteShape (List.map Prod.fst (q :: qs)) = true) = True := by rw [hp]; simp
  simp only [expandCore, hbrc, hqc, hpc, if_false, if_true]

theorem expand_permuteNode (args : List PNode) (hne : args ≠ [])
    (hcomma : ∀ a ∈ args, a ≠ .str ",") :
    expand (.list (PNode.str "PERMUTE" :: PNode.str "(" :: args ++ [PNode.str ")"])) =
      (args.mapM expand).map permuteOut := by
  have hsc : stripCommas (PNode.str "PERMUTE" :: PNode.str "(" :: args ++ [PNode.str ")"]) =
      PNode.str "PERMUTE" :: PNode.str "(" :: args ++ [PNode.str ")"] := by
    apply stripCommas_eq_self
    intro t ht
    rcases List.mem_cons.mp ht with rfl | ht2
    · simp
    rcases List.mem_cons.mp ht2 with rfl | ht3
    · simp
    rcases List.mem_append.mp ht3 with ht4 | ht4
    · exact hcomma t ht4
    · simp at ht4
      rw [ht4]
      simp
  have hlen : 1 ≤ args.length := by
    cases args with
    | nil => exact absurd rfl hne
    | cons _ _ => simp
  rw [expand_list_eq, hsc]
  have hshape : (PNode.str "PERMUTE" :: PNode.str "(" :: args ++ [PNode.str ")"]).map
        (fun x => (x, expand x))
      = (PNode.str "PERMUTE", expand (PNode.str "PERMUTE")) ::
          ((PNode.str "(", expand (PNode.str "(")) ::
            (args ++ [PNode.str ")"]).map (fun x => (x, expand x))) := by
    simp
  rw [hshape]
  have hfst : ((PNode.str "PERMUTE", expand (PNode.str "PERMUTE")) ::
        ((PNode.str "(", expand (PNode.str "(")) ::
          (args ++ [PNode.str ")"]).map (fun x => (x, expand x)))).map Prod.fst
      = PNode.str "PERMUTE" :: PNode.str "(" :: args ++ [PNode.str ")"] := by
    simpa using map_fst_expandMap (args ++ [PNode.str ")"])
  have hlenL : (PNode.str "PERMUTE" :: PNode.str "(" :: args ++ [PNode.str ")"]).length
      = args.length + 3 := by simp
  rw [expandCore_permuteBranch]
  · have hdrop : List.drop 2 ((PNode.str "PERMUTE", expand (PNode.str "PERMUTE")) ::
          ((PNode.str "(", expand (PNode.str "(")) ::
            (args ++ [PNode.str ")"]).map (fun x => (x, expand x))))
        = args.map (fun x => (x, expand x)) ++ [(PNode.str ")", expand (PNode.str ")"))] := by
      simp
    rw [hdrop, List.dropLast_concat, mapM_snd_expandMap]
  · rw [hfst]
    rfl
  · rw [hfst]
    simp only [isQuantShape, hlenL]
    simp
  · rw [hfst]
    simp only [isPermuteShape, hlenL]
    simp only [Bool.and_eq_true]
    constructor
    · simp
      omega
    · rfl

theorem productAll_singletons (l : List String) :
    productAll (l.map (fun s => [[s]])) = [l.map (fun s => [s])] := by
  induction l with
  | nil => rfl
  | cons s xs ih =>
    simp only [List.map_cons, productAll, List.foldr_cons]
    show ([[s]] : List (List String)).flatMap
      (fun x => (productAll (xs.map (fun s => [[s]]))).map (fun t => x :: t)) = _
    rw [ih]
    rfl

theorem flatMap_getD_singletons (syms : List String) (p : List Nat)
    (hp : ∀ i ∈ p, i < syms.length) :
    p.flatMap (fun i => (syms.map (fun s => [s])).getD i []) =
      p.map (fun i => syms.getD i "") := by
  induction p with
  | nil => rfl
  | cons i p' ih =>
    have hi : i < syms.length := hp i (by simp)
    have h1 : (syms.map (fun s => [s])).getD i [] = [syms.getD i ""] := by
      rw [List.getD_eq_getElem _ _ (by simpa using hi), List.getD_eq_getElem _ _ hi]
      simp
    rw [List.flatMap_cons, List.map_cons, h1, ih (fun j hj => hp j (by simp [hj]))]
    rfl

theorem map_getD_inj (syms : List String) (hnd : syms.Nodup) :
    ∀ p q : List Nat, (∀ i ∈ p, i < syms.length) → (∀ i ∈ q, i < syms.length) →
      p.map (fun i => syms.getD i "") = q.map (fun i => syms.getD i "") → p = q := by
  intro p
  induction p with
  | nil =>
    intro q _ _ h
    exact (List.map_eq_nil_iff.mp h.symm).symm
  | cons i p' ih =>
    intro q hp hq h
    cases q with
    | nil => exact absurd h (by simp)
    | cons j q' =>
      simp only [List.map_cons, List.cons.injEq] at h
      have hi : i < syms.length := hp i (by simp)
      have hj : j < syms.length := hq j (by simp)
      have hij : i = j := by
        have h1 := h.1
        rw [List.getD_eq_getElem _ _ hi, List.getD_eq_getElem _ _ hj] at h1
        exact (List.Nodup.getElem_inj_iff hnd).mp h1
      rw [hij, ih q' (fun a ha => hp a (by simp [ha])) (fun a ha => hq a (by simp [ha])) h.2]

theorem map_range_getD (syms : List String) :
    (List.range syms.length).map (fun i => syms.getD i "") = syms := by
  apply List.ext_getElem
  · simp
  · intro n h1 h2
    simp only [List.getElem_map, List.getElem_range]
    exact List.getD_eq_getElem _ _ h2

theorem permuteOut_singletons (syms : List String) (hnd : syms.Nodup) :
    permuteOut (syms.map (fun s => [[s]])) =
      (permsLexF syms.length (List.range syms.length)).map
        (fun p => p.map (fun i => syms.getD i "")) := by
  have hk : (syms.map (fun s => [s])).length = syms.length := by simp
  have hspec := permsLex_spec syms.length (List.range syms.length)
    (by simp) (List.nodup_range _)
  have hmem : ∀ p ∈ permsLexF syms.length (List.range syms.length),
      ∀ i ∈ p, i < syms.length := by
    intro p hp i hi
    have := (hspec.2.2 p hp).mem_iff.mp hi
    simpa using this
  unfold permuteOut
  rw [productAll_singletons, List.flatMap_singleton, hk]
  show pyDedup ((permsLex (List.range syms.length)).map _) = _
  unfold permsLex
  rw [List.length_range]
  have hmapeq : (permsLexF syms.length (List.range syms.length)).map
        (fun perm => perm.flatMap (fun idx => (syms.map (fun s => [s])).getD idx []))
      = (permsLexF syms.length (List.range syms.length)).map
        (fun p => p.map (fun i => syms.getD i "")) := by
    apply List.map_congr_left
    intro p hp
    exact flatMap_getD_singletons syms p (hmem p hp)
  rw [hmapeq]
  apply pyDedup_eq_self
  apply List.Nodup.map_on
  · intro p hpm q hqm heq
    exact map_getD_inj syms hnd p q (hmem p hpm) (hmem q hqm) heq
  · exact hspec.2.1

/-- C4: the claim holds only when the `k` argument symbols are pairwise
distinct (and the arguments carry no stray comma tokens, which the comma
stripping would delete): then `PERMUTE(x1,...,xk)` expands to exactly `k!`
pairwise-distinct sequences, each a permutation of the `k` symbols, and
`PERMUTE(E, F)` expands to exactly `[[E,F], [F,E]]`.  With repeated symbols
the final deduplication collapses coinciding permutations (counterexample
below). -/
theorem c4_permute (args : List PNode) (syms : List String)
    (hne : args ≠ []) (hcomma : ∀ a ∈ args, a ≠ .str ",")
    (hexp : List.Forall₂ (fun a s => expand a = some [[s]]) args syms)
    (hnd : syms.Nodup) :
    (∃ r, expand (.list (PNode.str "PERMUTE" :: PNode.str "(" :: args ++ [PNode.str ")"])) = some r
       ∧ r.length = Nat.factorial args.length
       ∧ r.Nodup
       ∧ ∀ seq ∈ r, seq.Perm syms)
    ∧ expand (.list [.str "PERMUTE", .str "(", .str "E", .str ",", .str "F", .str ")"])
        = some [["E", "F"], ["F", "E"]] := by
  constructor
  · have hlen : args.length = syms.length := hexp.length_eq
    have hspec := permsLex_spec syms.length (List.range syms.length)
      (by simp) (List.nodup_range _)
    refine ⟨(permsLexF syms.length (List.range syms.length)).map
      (fun p => p.map (fun i => syms.getD i "")), ?_, ?_, ?_, ?_⟩
    · rw [expand_permuteNode args hne hcomma, mapM_expand_forall hexp]
      show some (permuteOut (syms.map (fun s => [[s]]))) = _
      rw [permuteOut_singletons syms hnd]
    · rw [List.length_map, hspec.1, hlen]
    · apply List.Nodup.map_on
      · intro p hpm q hqm heq
        apply map_getD_inj syms hnd p q
        · intro i hi
          simpa using (hspec.2.2 p hpm).mem_iff.mp hi
        · intro i hi
          simpa using (hspec.2.2 q hqm).mem_iff.mp hi
        · exact heq
      · exact hspec.2.1
    · intro seq hseq
      obtain ⟨p, hpm, rfl⟩ := List.mem_map.mp hseq
      have hperm := (hspec.2.2 p hpm).map (fun i => syms.getD i "")
      rw [map_range_getD syms] at hperm
      exact hperm
  · rfl

/-- C4 (counterexample): `PERMUTE(E, E)` has two arguments, each expanding to
one sequence of length one, but the two orderings coincide and the final
deduplication leaves a single sequence, not `2! = 2`. -/
theorem c4_cex :
    expand (.list [.str "PERMUTE", .str "(", .str "E", .str ",", .str "E", .str ")"])
      = some [["E", "E"]]
    ∧ ([["E", "E"]] : ERes).length ≠ Nat.factorial 2 := by
  exact ⟨rfl, by decide⟩

/-- C4 (witness). -/
theorem c4_witness :
    ([PNode.str "E", PNode.str "F"] : List PNode) ≠ []
    ∧ List.Forall₂ (fun a s => expand a = some [[s]]) [PNode.str "E", PNode.str "F"] ["E", "F"]
    ∧ (["E", "F"] : List String).Nodup
    ∧ expand (.list [.str "PERMUTE", .str "(", .str "E", .str ",", .str "F", .str ")"])
        = some [["E", "F"], ["F", "E"]] := by
  have h := c4_permute [PNode.str "E", PNode.str "F"] ["E", "F"] (by simp)
    (by
      intro a ha
      rcases List.mem_cons.mp ha with rfl | ha2
      · simp
      · rcases List.mem_cons.mp ha2 with rfl | ha3
        · simp
        · cases ha3)
    (List.Forall₂.cons rfl (List.Forall₂.cons rfl List.Forall₂.nil))
    (by decide)
  exact ⟨by simp, List.Forall₂.cons rfl (List.Forall₂.cons rfl List.Forall₂.nil), by decide, h.2⟩

theorem scanCondList_spec (pl p0 ob : String) (ss : List String) (sym : String)
    (cl : List String) :
    scanCondList pl p0 ob ss sym cl =
      (((cl.filter (fun c => (win_match pl p0 ob c).isNone)).filter
          (fun c => uses_only_allowed c ss && !containsNav c)).map
        (fun c => add_symbol_qual c sym),
       cl.filterMap (fun c => (win_match pl p0 ob c).map (fun w => (c, w)))) := by
  have main : ∀ (cl : List String) (st : List String × List (String × String)),
      cl.foldl (fun st c =>
        match classifyFrag pl p0 ob ss sym c with
        | .window cond w => (st.1, st.2 ++ [(cond, w)])
        | .keep k => (st.1 ++ [k], st.2)
        | .drop => st) st
      = (st.1 ++ ((cl.filter (fun c => (win_match pl p0 ob c).isNone)).filter
            (fun c => uses_only_allowed c ss && !containsNav c)).map
          (fun c => add_symbol_qual c sym),
         st.2 ++ cl.filterMap (fun c => (win_match pl p0 ob c).map (fun w => (c, w)))) := by
    intro cl
    induction cl with
    | nil => intro st; simp
    | cons c cl ih =>
      intro st
      rw [List.foldl_cons, ih]
      cases hw : win_match pl p0 ob c with
      | some w =>
        simp only [classifyFrag, hw]
        rw [List.filter_cons_of_neg (by simp [hw])]
        simp only [List.filterMap_cons, hw, Option.map_some']
        simp [List.append_assoc]
      | none =>
        by_cases hu : uses_only_allowed c ss
        · by_cases hn : containsNav c
          · simp only [classifyFrag, hw, hu, hn]
            rw [List.filter_cons_of_pos (by simp [hw]),
              List.filter_cons_of_neg (by simp [hu, hn])]
            simp only [List.filterMap_cons, hw, Option.map_none']
            simp
          · simp only [classifyFrag, hw, hu, hn]
            rw [List.filter_cons_of_pos (by simp [hw]),
              List.filter_cons_of_pos (by simp [hu, hn])]
            simp only [List.filterMap_cons, hw, Option.map_none']
            simp [List.append_assoc]
        · simp only [classifyFrag, hw, hu]
          rw [List.filter_cons_of_pos (by simp [hw]),
            List.filter_cons_of_neg (by simp [hu])]
          simp only [List.filterMap_cons, hw, Option.map_none']
          simp
  have := main cl ([], [])
  simpa [scanCondList] using this

theorem scanDefine_spec (pl p0 ob : String) (ss : List String)
    (D : List (String × List String)) :
    scanDefine pl p0 ob ss D = (keptBody pl p0 ob ss D, windowMatches pl p0 ob D) := by
  have main : ∀ (D : List (String × List String)) (st : List String × List (String × String)),
      D.foldl (fun st p =>
        let r := scanCondList pl p0 ob ss p.1 p.2
        (st.1 ++ (if p.1 ∈ ss then r.1 else []), st.2 ++ r.2)) st
      = (st.1 ++ keptBody pl p0 ob ss D, st.2 ++ windowMatches pl p0 ob D) := by
    intro D
    induction D with
    | nil => intro st; simp [keptBody, windowMatches]
    | cons p D ih =>
      intro st
      rw [List.foldl_cons, ih]
      have hk : keptBody pl p0 ob ss (p :: D) =
          (if p.1 ∈ ss then (scanCondList pl p0 ob ss p.1 p.2).1 else [])
            ++ keptBody pl p0 ob ss D := by
        rw [keptBody, List.flatMap_cons, scanCondList_spec]
        rfl
      have hw : windowMatches pl p0 ob (p :: D) =
          (scanCondList pl p0 ob ss p.1 p.2).2 ++ windowMatches pl p0 ob D := by
        rw [windowMatches, List.flatMap_cons, List.filterMap_append, scanCondList_spec]
        rfl
      rw [hk, hw]
      simp [List.append_assoc]
  have := main D ([], [])
  simpa [scanDefine] using this

theorem map_conds_spec (pattern : List String) (define : List (String × List String))
    (ob : String) (ss0 : List String) (rw : String) (ss : List String) (p0 pl : String)
    (hss : normalizeSS pattern ss0 = some ss)
    (h0 : pattern.head? = some p0) (hl : pattern.getLast? = some pl) :
    map_symbols_to_conds pattern define ob ss0 rw =
      (match (windowMatches pl p0 ob (pyDict define)).getLast? with
       | none => some ((if rw = "basic" then orderingConds ss ob else [])
           ++ keptBody pl p0 ob ss (pyDict define), none)
       | some (wc, w) =>
         match ss.head?, ss.getLast? with
         | some s0, some sl => some ((if rw = "basic" then orderingConds ss ob else [])
             ++ keptBody pl p0 ob ss (pyDict define)
             ++ [propagateWindow wc p0 pl s0 sl], some w)
         | _, _ => none) := by
  simp only [map_symbols_to_conds, hss, h0, hl, scanDefine_spec]

/-- C5: the synthesizer's window scan runs over the predicate fragments of
EVERY symbol of the define store (not only the symbols of the special
pattern — counterexample below); a fragment is recognised by the shape
`lastSym.attr - firstSym.attr <= window`; the captured window is the one of
the last matching fragment in store order (at most one window is produced),
and no window is produced exactly when no fragment of the store matches. -/
theorem c5_window_scan (pattern : List String) (define : List (String × List String))
    (ob : String) (ss0 conds : List String) (win : Option String) (p0 pl : String)
    (h0 : pattern.head? = some p0) (hl : pattern.getLast? = some pl)
    (h : map_symbols_to_conds pattern define ob ss0 "basic" = some (conds, win)) :
    win = (windowMatches pl p0 ob (pyDict define)).getLast?.map Prod.snd
    ∧ (win = none ↔ windowMatches pl p0 ob (pyDict define) = []) := by
  cases hss : normalizeSS pattern ss0 with
  | none =>
    simp only [map_symbols_to_conds, hss] at h
    cases h
  | some ss =>
    rw [map_conds_spec pattern define ob ss0 "basic" ss p0 pl hss h0 hl] at h
    cases hwm : (windowMatches pl p0 ob (pyDict define)).getLast? with
    | none =>
      rw [hwm] at h
      simp only [Option.some.injEq, Prod.mk.injEq] at h
      constructor
      · rw [← h.2]
        rfl
      · rw [← h.2]
        simp only [List.getLast?_eq_none_iff] at hwm
        simp [hwm]
    | some cw =>
      obtain ⟨wc, w⟩ := cw
      rw [hwm] at h
      cases hsh : ss.head? with
      | none =>
        rw [hsh] at h
        simp at h
      | some s0 =>
        cases hsl : ss.getLast? with
        | none =>
          rw [hsh, hsl] at h
          simp at h
        | some sl =>
          rw [hsh, hsl] at h
          simp only [Option.some.injEq, Prod.mk.injEq] at h
          have hne : windowMatches pl p0 ob (pyDict define) ≠ [] := by
            intro hz
            rw [hz] at hwm
            cases hwm
          constructor
          · rw [← h.2]
            rfl
          · rw [← h.2]
            simp [hne]

/-- C5 (counterexample): the define store binds a symbol `Z` that is not in
the special pattern `[A, B]`; `Z`'s fragment is the only window-shaped one,
no fragment of a pattern symbol matches (second conjunct), and yet a window
`5` is extracted — the scan is not restricted to symbols of the pattern. -/
theorem c5_cex :
    map_symbols_to_conds ["A", "B"] [("A", ["price > 5"]), ("Z", ["B.ts - A.ts <= 5"])]
        "ts" ["A", "B"] "basic"
      = some (["A.ts <= B.ts", "A.price > 5", "B.ts - A.ts <= 5"], some "5")
    ∧ win_match "B" "A" "ts" "price > 5" = none := by
  exact ⟨rfl, rfl⟩

/-- C5 (witness). -/
theorem c5_witness :
    (["A", "B"] : List String).head? = some "A"
    ∧ map_symbols_to_conds ["A", "B"] [("B", ["B.ts - A.ts <= INTERVAL '7' DAY"])]
        "ts" ["A", "B"] "basic"
      = some (["A.ts <= B.ts", "B.ts - A.ts <= INTERVAL '7' DAY"], some "INTERVAL '7' DAY")
    ∧ some "INTERVAL '7' DAY" =
        (windowMatches "B" "A" "ts"
          (pyDict [("B", ["B.ts - A.ts <= INTERVAL '7' DAY"])])).getLast?.map Prod.snd := by
  refine ⟨rfl, rfl, ?_⟩
  exact (c5_window_scan ["A", "B"] [("B", ["B.ts - A.ts <= INTERVAL '7' DAY"])] "ts"
    ["A", "B"] _ _ "A" "B" rfl rfl rfl).1

/-- C6: the per-symbol filtering of the synthesizer, as the code implements
it: for each symbol of the define store that belongs to the anchor sequence,
fragments that match the window shape are removed; fragments whose dotted
tokens mention a prefix outside the anchor are dropped; fragments containing
one of the eight word-bounded navigation tokens
PREV/NEXT/FIRST/LAST/LAG/LEAD/FIRST_VALUE/LAST_VALUE (case-sensitively) are
dropped; and the survivors are transformed by `add_symbol_qual` — which
leaves a fragment entirely unqualified when it already contains the symbol's
own dotted prefix anywhere, and otherwise prefixes every word-initial
identifier token that is not a SQL keyword and not followed by `(` (including
tokens already qualified by another symbol).  Exactly these fragments, in
store order, follow the ordering constraints in the output. -/
theorem c6_filtering (pattern : List String) (define : List (String × List String))
    (ob : String) (ss0 conds : List String) (win : Option String) (p0 pl : String)
    (h0 : pattern.head? = some p0) (hl : pattern.getLast? = some pl)
    (h : map_symbols_to_conds pattern define ob ss0 "basic" = some (conds, win)) :
    ∃ ss, normalizeSS pattern ss0 = some ss ∧
      conds = orderingConds ss ob ++ keptBody pl p0 ob ss (pyDict define) ++
        (match (windowMatches pl p0 ob (pyDict define)).getLast? with
         | none => []
         | some (wc, _) => [propagateWindow wc p0 pl (ss.headD "") (ss.getLastD "")]) := by
  cases hss : normalizeSS pattern ss0 with
  | none =>
    simp only [map_symbols_to_conds, hss] at h
    cases h
  | some ss =>
    refine ⟨ss, rfl, ?_⟩
    rw [map_conds_spec pattern define ob ss0 "basic" ss p0 pl hss h0 hl] at h
    cases hwm : (windowMatches pl p0 ob (pyDict define)).getLast? with
    | none =>
      rw [hwm] at h
      simp only [Option.some.injEq, Prod.mk.injEq] at h
      rw [← h.1]
      simp
    | some cw =>
      obtain ⟨wc, w⟩ := cw
      rw [hwm] at h
      cases hsh : ss.head? with
      | none =>
        rw [hsh] at h
        simp at h
      | some s0 =>
        cases hsl : ss.getLast? with
        | none =>
          rw [hsh, hsl] at h
          simp at h
        | some sl =>
          rw [hsh, hsl] at h
          simp only [Option.some.injEq, Prod.mk.injEq] at h
          rw [← h.1]
          have hh : ss.headD "" = s0 := by rw [List.headD_eq_head?_getD, hsh]; rfl
          have hg : ss.getLastD "" = sl := by rw [List.getLastD_eq_getLast?, hsl]; rfl
          rw [hh, hg]
          simp

/-- C6 (counterexample): the fragment `A.price > cost` of symbol `A` already
contains the prefix `A.`, so the source's guarding `re.search` skips
qualification entirely and the bare column `cost` stays unqualified; the
claim's predicted fragment `A.price > A.cost` is not in the output. -/
theorem c6_cex :
    map_symbols_to_conds ["A", "B"] [("A", ["A.price > cost"]), ("B", ["volume > 10"])]
        "ts" ["A", "B"] "basic"
      = some (["A.ts <= B.ts", "A.price > cost", "B.volume > 10"], none)
    ∧ "A.price > A.cost" ∉ (["A.ts <= B.ts", "A.price > cost", "B.volume > 10"] : List String) := by
  exact ⟨rfl, by decide⟩

/-- C6 (witness). -/
theorem c6_witness :
    map_symbols_to_conds ["A", "B"] [("A", ["price > PREV(price)", "cost < 9"])]
        "ts" ["A", "B"] "basic"
      = some (["A.ts <= B.ts", "A.cost < 9"], none)
    ∧ (["A.ts <= B.ts", "A.cost < 9"] : List String)
      = orderingConds ["A", "B"] "ts"
        ++ keptBody "B" "A" "ts" ["A", "B"] (pyDict [("A", ["price > PREV(price)", "cost < 9"])])
        ++ [] := by
  refine ⟨rfl, ?_⟩
  obtain ⟨ss, hss, hconds⟩ := c6_filtering ["A", "B"] [("A", ["price > PREV(price)", "cost < 9"])]
    "ts" ["A", "B"] _ _ "A" "B" rfl rfl rfl
  have hss2 : ss = ["A", "B"] := by
    rw [show normalizeSS ["A", "B"] ["A", "B"] = some ["A", "B"] from rfl] at hss
    exact (Option.some.injEq _ _ ▸ hss).symm ▸ rfl
  rw [hss2] at hconds
  simpa using hconds

theorem pyIndex_get {pattern : List String} (hnd : pattern.Nodup) :
    ∀ (i : Nat) (hi : i < pattern.length), pyIndex pattern (pattern.get ⟨i, hi⟩) = i := by
  induction pattern with
  | nil => intro i hi; cases hi
  | cons x xs ih =>
    intro i hi
    cases i with
    | zero => simp [pyIndex]
    | succ j =>
      have hx : x ∉ xs := (List.nodup_cons.mp hnd).1
      have hmem : xs.get ⟨j, by simpa using hi⟩ ∈ xs := List.get_mem _ _ _
      have hne : x ≠ xs.get ⟨j, by simpa using hi⟩ := fun hcon => hx (hcon ▸ hmem)
      show pyIndex (x :: xs) (xs.get ⟨j, _⟩) = j + 1
      rw [pyIndex, if_neg hne, ih (List.nodup_cons.mp hnd).2 j (by simpa using hi)]

theorem pairwise_pyIndex_lt {pattern : List String} (hnd : pattern.Nodup) :
    pattern.Pairwise (fun a b => pyIndex pattern a < pyIndex pattern b) := by
  rw [List.pairwise_iff_get]
  intro i j hij
  rw [pyIndex_get hnd i.1 i.2, pyIndex_get hnd j.1 j.2]
  exact hij

theorem isort_fixed (key : String → Nat) :
    ∀ l : List String, l.Pairwise (fun a b => key a < key b) → isort key l = l := by
  intro l
  induction l with
  | nil => intro _; rfl
  | cons x xs ih =>
    intro hp
    have hhead := (List.pairwise_cons.mp hp).1
    rw [isort, ih (List.pairwise_cons.mp hp).2]
    cases xs with
    | nil => rfl
    | cons y ys =>
      rw [insSorted, if_neg (by
        have := hhead y (by simp)
        omega)]

theorem normalizeSS_self (pattern : List String) :
    normalizeSS pattern pattern = some pattern := by
  rw [normalizeSS]
  by_cases hc : (pyDedup pattern).length = pattern.length
  · rw [if_pos hc, if_pos (by simp)]
    rw [isort_fixed _ _ (pairwise_pyIndex_lt (nodup_of_pyDedup_length hc))]
  · rw [if_neg hc]

theorem pyReplaceAux_self (a : List Char) :
    ∀ (fuel : Nat) (s : List Char), pyReplaceAux fuel s a a = s := by
  intro fuel
  induction fuel with
  | zero => intro s; rfl
  | succ f ih =>
    intro s
    cases s with
    | nil => rfl
    | cons c cs =>
      rw [pyReplaceAux]
      by_cases hpre : a ≠ [] ∧ a.isPrefixOf (c :: cs)
      · rw [if_pos hpre]
        obtain ⟨t, ht⟩ := (List.isPrefixOf_iff_prefix.mp hpre.2)
        rw [← ht, List.drop_left, ih]
      · rw [if_neg hpre, ih]

theorem pyReplace_self (s a : String) : pyReplace s a a = s := by
  rw [pyReplace, pyReplaceAux_self]

/-- C7: when a window fragment was captured, the synthesizer appends the
captured text rewritten by the two sequential `str.replace` substitutions
(`pattern[0] + "."` by the anchor's first symbol prefix, then
`pattern[-1] + "."` by the anchor's last symbol prefix); and for an anchor
sequence equal to the full special pattern the appended window text is
byte-identical to the extracted fragment. -/
theorem c7_propagation (pattern : List String) (define : List (String × List String))
    (ob : String) (ss0 conds : List String) (w : String) (p0 pl : String)
    (h0 : pattern.head? = some p0) (hl : pattern.getLast? = some pl)
    (h : map_symbols_to_conds pattern define ob ss0 "basic" = some (conds, some w)) :
    ∃ ss wc, normalizeSS pattern ss0 = some ss
      ∧ (windowMatches pl p0 ob (pyDict define)).getLast? = some (wc, w)
      ∧ conds.getLast? = some (propagateWindow wc p0 pl (ss.headD "") (ss.getLastD ""))
      ∧ (ss0 = pattern → conds.getLast? = some wc) := by
  cases hss : normalizeSS pattern ss0 with
  | none =>
    simp only [map_symbols_to_conds, hss] at h
    cases h
  | some ss =>
    rw [map_conds_spec pattern define ob ss0 "basic" ss p0 pl hss h0 hl] at h
    cases hwm : (windowMatches pl p0 ob (pyDict define)).getLast? with
    | none =>
      rw [hwm] at h
      simp at h
    | some cw =>
      obtain ⟨wc, w'⟩ := cw
      rw [hwm] at h
      cases hsh : ss.head? with
      | none =>
        rw [hsh] at h
        simp at h
      | some s0 =>
        cases hsl : ss.getLast? with
        | none =>
          rw [hsh, hsl] at h
          simp at h
        | some sl =>
          rw [hsh, hsl] at h
          simp only [Option.some.injEq, Prod.mk.injEq] at h
          have hw : w' = w := h.2
          have hh : ss.headD "" = s0 := by rw [List.headD_eq_head?_getD, hsh]; rfl
          have hg : ss.getLastD "" = sl := by rw [List.getLastD_eq_getLast?, hsl]; rfl
          have hlast : conds.getLast? = some (propagateWindow wc p0 pl s0 sl) := by
            rw [← h.1, List.getLast?_concat]
          refine ⟨ss, wc, rfl, by rw [hw], by rw [hh, hg]; exact hlast, ?_⟩
          intro heq
          subst heq
          rw [normalizeSS_self] at hss
          have hssp : ss = ss0 := by
            injection hss with h2
            exact h2.symm
          subst hssp
          have hs0 : s0 = p0 := by
            rw [hsh] at h0
            injection h0
          have hsl2 : sl = pl := by
            rw [hsl] at hl
            injection hl
          rw [hlast, hs0, hsl2, propagateWindow, pyReplace_self, pyReplace_self]

/-- C7 (witness): the anchor equals the full special pattern `[A, B]` and the
propagated window text appended last is byte-identical to the extracted
fragment `B.ts - A.ts <= 5`. -/
theorem c7_witness :
    map_symbols_to_conds ["A", "B"] [("A", ["price > 5"]), ("B", ["B.ts - A.ts <= 5"])]
        "ts" ["A", "B"] "basic"
      = some (["A.ts <= B.ts", "A.price > 5", "B.ts - A.ts <= 5"], some "5")
    ∧ (["A.ts <= B.ts", "A.price > 5", "B.ts - A.ts <= 5"] : List String).getLast?
        = some "B.ts - A.ts <= 5" := by
  refine ⟨rfl, ?_⟩
  obtain ⟨ss, wc, hss, hwm, hlast, himp⟩ := c7_propagation ["A", "B"]
    [("A", ["price > 5"]), ("B", ["B.ts - A.ts <= 5"])] "ts" ["A", "B"]
    ["A.ts <= B.ts", "A.price > 5", "B.ts - A.ts <= 5"] "5" "A" "B" rfl rfl rfl
  have hthis := himp rfl
  have hcalc : (windowMatches "B" "A" "ts"
      (pyDict [("A", ["price > 5"]), ("B", ["B.ts - A.ts <= 5"])])).getLast?
      = some ("B.ts - A.ts <= 5", "5") := rfl
  rw [hcalc] at hwm
  injection hwm with hpair
  have hwc : wc = "B.ts - A.ts <= 5" := by
    have := congrArg Prod.fst hpair
    exact this.symm
  rw [hwc] at hthis
  exact hthis

/-- C8: with no extracted window, the continuous range builder raises its
explicit ValueError whenever the anchor does not touch both pattern
boundaries, and the discretized rewrite always raises its explicit
"missing Pattern Window Condition" ValueError; neither returns a bound. -/
theorem c8_missing_window :
    (∀ (pattern ss : List String) (ob ds : String) (conds : List String) (s0 sl p0 pl : String),
      ss.head? = some s0 → ss.getLast? = some sl →
      pattern.head? = some p0 → pattern.getLast? = some pl →
      (s0 ≠ p0 ∨ sl ≠ pl) →
      build_basic_ranges_sub pattern ss ob ds conds none =
        .error "Cannot compute time range: insufficient endpoints or window")
    ∧ (∀ (define : List (String × List String)) (ob : String) (pnode : PNode)
        (ss : List String) (ds mr : String) (conds : List String),
      pyIsalpha (joinSep "" (flattenP pnode)) = true →
      map_symbols_to_conds (flattenP pnode) define ob ss "bucket" = some (conds, none) →
      rewrite_bucketized define ob pnode ss ds mr =
        .error "Bucketized Prefilter relies on the (missing) Pattern Window Condition") := by
  constructor
  · intro pattern ss ob ds conds s0 sl p0 pl hsh hsl h0 hl hne
    simp only [build_basic_ranges_sub, get_basic_time_range, hsh, hsl, h0, hl]
    rw [if_neg (by
      rintro ⟨he1, he2⟩
      rcases hne with h | h
      · exact h he1
      · exact h he2)]
    rw [if_neg (by simp [pyTruthy]), if_neg (by simp [pyTruthy]), if_neg (by simp [pyTruthy])]
  · intro define ob pnode ss ds mr conds halpha hmap
    simp only [rewrite_bucketized, halpha, hmap]
    rfl

/-- C8 (witness). -/
theorem c8_witness :
    (["B"] : List String).head? = some "B"
    ∧ ("B" ≠ "A" ∨ "B" ≠ "C")
    ∧ build_basic_ranges_sub ["A", "B", "C"] ["B"] "ts" "ds" [] none =
        .error "Cannot compute time range: insufficient endpoints or window"
    ∧ map_symbols_to_conds (flattenP (.list [.str "A", .str "B"])) [("A", ["x > 1"])]
        "ts" ["B"] "bucket" = some ([], none)
    ∧ rewrite_bucketized [("A", ["x > 1"])] "ts" (.list [.str "A", .str "B"]) ["B"] "ds" "MR" =
        .error "Bucketized Prefilter relies on the (missing) Pattern Window Condition" := by
  refine ⟨rfl, Or.inl (by decide), ?_, rfl, ?_⟩
  · exact c8_missing_window.1 ["A", "B", "C"] ["B"] "ts" "ds" [] "B" "B" "A" "C"
      rfl rfl rfl rfl (Or.inl (by decide))
  · exact c8_missing_window.2 [("A", ["x > 1"])] "ts" (.list [.str "A", .str "B"])
      ["B"] "ds" "MR" [] rfl rfl

theorem insSorted_length (key : String → Nat) (x : String) :
    ∀ l : List String, (insSorted key x l).length = l.length + 1 := by
  intro l
  induction l with
  | nil => rfl
  | cons y ys ih =>
    rw [insSorted]
    by_cases hc : key y < key x
    · rw [if_pos hc]
      simp [ih]
    · rw [if_neg hc]
      simp

theorem isort_length (key : String → Nat) :
    ∀ l : List String, (isort key l).length = l.length := by
  intro l
  induction l with
  | nil => rfl
  | cons x xs ih =>
    rw [isort, insSorted_length, ih]
    rfl

/-- C9: no validation of the anchor sequence is performed up front.  What the
code does: when the special pattern is duplicate-free, the sort key lookup
`pattern.index` raises ValueError for an anchor symbol outside the pattern
(first conjunct); in every other situation — in particular for anchor symbols
that are missing from the define store — synthesis proceeds normally and
returns a result (second conjunct). -/
theorem c9_anchor_validation :
    (∀ (pattern : List String) (define : List (String × List String)) (ob : String)
        (ss0 : List String) (rw : String) (s : String),
      (pyDedup pattern).length = pattern.length → s ∈ ss0 → s ∉ pattern →
      map_symbols_to_conds pattern define ob ss0 rw = none)
    ∧ (∀ (pattern : List String) (define : List (String × List String)) (ob : String)
        (ss0 : List String) (rw : String),
      pattern ≠ [] → ss0 ≠ [] → (∀ s ∈ ss0, s ∈ pattern) →
      (map_symbols_to_conds pattern define ob ss0 rw).isSome) := by
  constructor
  · intro pattern define ob ss0 rw s hc hs hnot
    have hall : ¬ (ss0.all (fun s => s ∈ pattern) = true) := by
      intro hall
      have := List.all_eq_true.mp hall s hs
      simp at this
      exact hnot this
    simp only [map_symbols_to_conds, normalizeSS, if_pos hc, if_neg hall]
  · intro pattern define ob ss0 rw hp hs hmem
    have hss : ∃ ss, normalizeSS pattern ss0 = some ss ∧ ss ≠ [] := by
      rw [normalizeSS]
      by_cases hc : (pyDedup pattern).length = pattern.length
      · rw [if_pos hc, if_pos (List.all_eq_true.mpr (fun s hsm => by simpa using hmem s hsm))]
        refine ⟨_, rfl, ?_⟩
        intro hcon
        have := isort_length (pyIndex pattern) ss0
        rw [hcon] at this
        simp at this
        exact hs (List.length_eq_zero.mp this.symm)
      · rw [if_neg hc]
        exact ⟨ss0, rfl, hs⟩
    obtain ⟨ss, hss, hssne⟩ := hss
    obtain ⟨p0, hp0⟩ : ∃ x, pattern.head? = some x := by
      cases pattern with
      | nil => exact absurd rfl hp
      | cons a l => exact ⟨a, rfl⟩
    obtain ⟨pl, hpl⟩ : ∃ x, pattern.getLast? = some x := by
      cases hg : pattern.getLast? with
      | none => exact absurd (List.getLast?_eq_none_iff.mp hg) hp
      | some x => exact ⟨x, rfl⟩
    rw [map_conds_spec pattern define ob ss0 rw ss p0 pl hss hp0 hpl]
    cases hwm : (windowMatches pl p0 ob (pyDict define)).getLast? with
    | none => rfl
    | some cw =>
      obtain ⟨wc, w⟩ := cw
      obtain ⟨s0, hs0⟩ : ∃ x, ss.head? = some x := by
        cases ss with
        | nil => exact absurd rfl hssne
        | cons a l => exact ⟨a, rfl⟩
      obtain ⟨sl, hsl⟩ : ∃ x, ss.getLast? = some x := by
        cases hg : ss.getLast? with
        | none => exact absurd (List.getLast?_eq_none_iff.mp hg) hssne
        | some x => exact ⟨x, rfl⟩
      rw [hs0, hsl]
      rfl

/-- C9 (counterexample): the anchor `[A, B]` references the symbol `B`, which
is not a key of the define store; the claim requires a fatal error before
synthesis, but the code synthesizes an ordering constraint and `A`'s
predicate without any error. -/
theorem c9_cex :
    map_symbols_to_conds ["A", "B"] [("A", ["price > 5"])] "ts" ["A", "B"] "basic"
      = some (["A.ts <= B.ts", "A.price > 5"], none)
    ∧ "A.ts <= B.ts" ∈ (["A.ts <= B.ts", "A.price > 5"] : List String) := by
  exact ⟨rfl, by decide⟩

/-- C9 (witness). -/
theorem c9_witness :
    ((pyDedup ["A", "B"]).length = (["A", "B"] : List String).length
      ∧ map_symbols_to_conds ["A", "B"] [] "ts" ["Z"] "basic" = none)
    ∧ ((["A", "C"] : List String) ≠ []
      ∧ (map_symbols_to_conds ["A", "C"] [("A", ["x > 1"])] "ts" ["C", "A"] "basic").isSome) := by
  constructor
  · exact ⟨by decide, c9_anchor_validation.1 ["A", "B"] [] "ts" ["Z"] "basic" "Z"
      (by decide) (by decide) (by decide)⟩
  · refine ⟨by simp, c9_anchor_validation.2 ["A", "C"] [("A", ["x > 1"])] "ts" ["C", "A"] "basic"
      (by simp) (by simp) ?_⟩
    intro s hsm
    rcases List.mem_cons.mp hsm with rfl | h2
    · decide
    · rcases List.mem_cons.mp h2 with rfl | h3
      · decide
      · cases h3
